import Mathlib

/-!
# Verification of the docassemble-dag dependency graph engine

Shallow embedding of the core of the `docassemble_dag` Python package:
the graph data structure (`graph.py`), ordering algorithms
(`graph_operations.py`), diff/impact analysis (`comparison.py`),
the validation policy engine (`validation.py`) and the extraction layer
(`parser.py`, `ast_parser.py`).

Conventions used throughout the embedding:
* Python `dict`s keyed by node name are embedded as association lists
  `List (String × _)` in insertion order (Python dicts preserve insertion
  order); `set`s are embedded as lists used only through membership, so
  insertion order of a Python set iteration is determinized to list order
  (no claim below depends on that order).
* Python exceptions become `Except` results.
* Recursions that Python bounds by a growing `visited` set (or by an
  explicit depth counter) are embedded with an explicit fuel argument;
  the fuel chosen is provably sufficient for graphs satisfying the
  constructor invariant, which is the only way such graphs arise.
-/

namespace DaDag

/-- `types.NodeKind`. -/
inductive NodeKind where
  | variable
  | question
  | rule
  | assemblyLine
  deriving DecidableEq, Repr

/-- `types.DependencyType`. -/
inductive DependencyType where
  | explicit
  | implicit
  deriving DecidableEq, Repr

/-- Embedded YAML value, as far as the analysed code observes it: the code
only ever branches on `isinstance(x, str/list/dict)` and on truthiness, so
every other scalar is collapsed to `other` carrying its truthiness.
Mapping keys are modelled as strings (the code only looks up string keys;
entries under non-string keys are never read by the extraction paths). -/
inductive Yaml where
  | str (s : String)
  | list (l : List Yaml)
  | map (m : List (String × Yaml))
  | other (truthy : Bool)

mutual

/-- Structural equality on embedded YAML values (Python `==`/`!=`). -/
def Yaml.beq : Yaml → Yaml → Bool
  | .str a, .str b => a == b
  | .list a, .list b => Yaml.beqList a b
  | .map a, .map b => Yaml.beqPairs a b
  | .other a, .other b => a == b
  | _, _ => false

def Yaml.beqList : List Yaml → List Yaml → Bool
  | [], [] => true
  | a :: as, b :: bs => Yaml.beq a b && Yaml.beqList as bs
  | _, _ => false

def Yaml.beqPairs : List (String × Yaml) → List (String × Yaml) → Bool
  | [], [] => true
  | (k, v) :: as, (k2, v2) :: bs =>
    k == k2 && Yaml.beq v v2 && Yaml.beqPairs as bs
  | _, _ => false

end

instance : BEq Yaml := ⟨Yaml.beq⟩

/-- Equality between optional YAML values (Python `==` with `None`). -/
def Yaml.beqOpt : Option Yaml → Option Yaml → Bool
  | none, none => true
  | some a, some b => Yaml.beq a b
  | _, _ => false

/-- `types.Node`.  `authority` keeps the raw YAML value that
`var.get('authority') or var.get('statute')` produces (it need not be a
string in the source).  The `str()` coercion applied to the stored
`object_type` metadata value is dropped; no analysed operation reads it. -/
structure Node where
  name : String
  kind : NodeKind
  source : String
  authority : Option Yaml := none
  filePath : Option String := none
  lineNumber : Option Nat := none
  metadata : List (String × Yaml) := []

/-- `types.Edge`: `toNode` depends on `fromNode`. -/
structure Edge where
  fromNode : String
  toNode : String
  depType : DependencyType
  filePath : Option String := none
  lineNumber : Option Nat := none
  deriving DecidableEq, Repr

/-- `exceptions.GraphError` (message text plus the optional node name). -/
structure GraphError where
  message : String
  nodeName : Option String := none
  deriving DecidableEq, Repr

/-- `exceptions.CycleError` (carries the detected cycle list). -/
structure CycleError where
  message : String
  cycles : List (List String) := []
  deriving DecidableEq, Repr

/-- `graph.DependencyGraph` data: the node mapping (insertion-ordered
association list, unique keys in any dict-originated value) and the edge
list.  The adjacency indices `adj`/`rev` are derived functions below. -/
structure Graph where
  nodes : List (String × Node)
  edges : List Edge

namespace Graph

/-- The node-name key set, in insertion order. -/
def keys (g : Graph) : List String := g.nodes.map Prod.fst

/-- `self.adj.get(u, [])`: targets of edges out of `u`, in edge order
(the constructor builds `adj` by appending over the edge list). -/
def adjL (g : Graph) (u : String) : List String :=
  (g.edges.filter (fun e => e.fromNode = u)).map Edge.toNode

/-- `self.rev.get(v, [])`: sources of edges into `v`, in edge order. -/
def revL (g : Graph) (v : String) : List String :=
  (g.edges.filter (fun e => e.toNode = v)).map Edge.fromNode

/-- Well-formedness every Python-constructed `DependencyGraph` enjoys:
dict keys are unique and the constructor validated all edge endpoints. -/
def WF (g : Graph) : Prop :=
  g.keys.Nodup ∧ ∀ e ∈ g.edges, e.fromNode ∈ g.keys ∧ e.toNode ∈ g.keys

instance : DecidablePred WF := fun g => by
  unfold WF; infer_instance

end Graph

/-- The edge-endpoint scan of `DependencyGraph.__init__`: returns the first
validation error, traversing edges in order and checking `from_node` before
`to_node` (the f-string quoting of the name is not reproduced verbatim). -/
def checkEdges (ks : List String) : List Edge → Option GraphError
  | [] => none
  | e :: rest =>
    if e.fromNode ∉ ks then
      some ⟨"Edge references non-existent node " ++ e.fromNode, some e.fromNode⟩
    else if e.toNode ∉ ks then
      some ⟨"Edge references non-existent node " ++ e.toNode, some e.toNode⟩
    else checkEdges ks rest

/-- `DependencyGraph.__init__`: the runtime `isinstance` checks are moot in
a typed embedding; the eager edge-endpoint validation is the graph's hard
invariant.  On success the stored graph is exactly the given data. -/
def mkGraph (nodes : List (String × Node)) (edges : List Edge) :
    Except GraphError Graph :=
  match checkEdges (nodes.map Prod.fst) edges with
  | some err => .error err
  | none => .ok ⟨nodes, edges⟩

namespace Graph

/-- `DependencyGraph.get_dependencies`. -/
def getDependencies (g : Graph) (n : String) : List String := g.revL n

/-- `DependencyGraph.get_dependents`. -/
def getDependents (g : Graph) (n : String) : List String := g.adjL n

/-- `DependencyGraph.find_roots`: nodes with empty reverse adjacency. -/
def findRoots (g : Graph) : List String :=
  g.keys.filter (fun n => (g.revL n).length = 0)

/-- `DependencyGraph.find_orphans`. -/
def findOrphans (g : Graph) : List String :=
  g.keys.filter (fun n => (g.revL n).length = 0 ∧ (g.adjL n).length = 0)

end Graph

/-- Python `set.add` on a membership list. -/
def addToSet (l : List String) (x : String) : List String :=
  if x ∈ l then l else l ++ [x]

/-- Python `set.update` (union into the accumulator). -/
def unionSet (l : List String) (xs : List String) : List String :=
  xs.foldl addToSet l

namespace Graph

/-- State of the cycle-detection DFS of `find_cycles`: the `visited` set
(as a membership list) and the accumulated cycle list. -/
structure DfsState where
  visited : List String
  cycles : List (List String)

/-- `find_cycles.dfs`.  The source's `stack` set always holds exactly the
entries of `path` when `dfs(node, path)` is entered, so the `node in
stack` test is embedded as `node ∈ path`; the recorded cycle
`path[path.index(node):] + [node]` is reproduced verbatim.  The fuel
argument only bounds the recursion depth: every level that recurses has
just added a fresh node to `visited`, so the fuel passed by `findCycles`
never runs out (each top-level call gets one more than the node count). -/
def cyclesDfs (g : Graph) : Nat → List String → String → DfsState → DfsState
  | 0, _, _, s => s
  | fuel + 1, path, node, s =>
    if node ∈ path then
      { s with cycles := s.cycles ++ [path.drop (path.indexOf node) ++ [node]] }
    else if node ∈ s.visited then s
    else
      (g.adjL node).foldl
        (fun acc nb => cyclesDfs g fuel (path ++ [node]) nb acc)
        { s with visited := node :: s.visited }

/-- `DependencyGraph.find_cycles`: DFS from every node, skipping nodes
already visited by an earlier component. -/
def findCycles (g : Graph) : List (List String) :=
  (g.keys.foldl
    (fun s name =>
      if name ∈ s.visited then s else cyclesDfs g (g.keys.length + 1) [] name s)
    ⟨[], []⟩).cycles

/-- `DependencyGraph.has_cycles`. -/
def hasCycles (g : Graph) : Bool :=
  decide (0 < g.findCycles.length)

/-- State of the transitive-closure DFS: `visited` and `result` sets. -/
structure ReachState where
  visited : List String
  result : List String

/-- `get_transitive_dependencies.dfs`: walks the reverse adjacency,
adding each dependency to `result` before recursing into it.  Fuel-based
(each recursing level adds a fresh visited node). -/
def depsDfs (g : Graph) : Nat → String → ReachState → ReachState
  | 0, _, s => s
  | fuel + 1, node, s =>
    if node ∈ s.visited then s
    else
      (g.revL node).foldl
        (fun acc dep => depsDfs g fuel dep { acc with result := addToSet acc.result dep })
        { s with visited := node :: s.visited }

/-- `DependencyGraph.get_transitive_dependencies`. -/
def getTransitiveDependencies (g : Graph) (n : String) : List String :=
  (depsDfs g (g.keys.length + 2) n ⟨[], []⟩).result

/-- `MAX_DEPTH` of `get_transitive_dependents`. -/
def maxDepth : Nat := 10000

/-- `get_transitive_dependents.dfs`, with the source's depth guard: the
source tracks a rising `depth` and raises `GraphError` when
`depth > MAX_DEPTH`; here `gas = MAX_DEPTH + 1 - depth`, so the guard
fires exactly when gas reaches zero. -/
def dependentsDfs (g : Graph) :
    Nat → String → ReachState → Except GraphError ReachState
  | 0, _, _ =>
    .error ⟨"Maximum depth exceeded while traversing dependents", none⟩
  | gas + 1, node, s =>
    if node ∈ s.visited then .ok s
    else
      (g.adjL node).foldlM
        (fun acc dep =>
          dependentsDfs g gas dep { acc with result := addToSet acc.result dep })
        { s with visited := node :: s.visited }

/-- `DependencyGraph.get_transitive_dependents`.  The per-instance memo
cache of the source is observationally transparent (it is only ever
filled with the value this same computation produces on an immutable
graph), so the embedding recomputes. -/
def getTransitiveDependents (g : Graph) (n : String) :
    Except GraphError (List String) :=
  if n ∉ g.keys then
    .error ⟨"Node " ++ n ++ " not found in graph", some n⟩
  else do
    let s ← dependentsDfs g (maxDepth + 1) n ⟨[], []⟩
    pure s.result

end Graph

/-- The queue/degree-threading loop of `graph_operations.topological_sort`
(Kahn's algorithm): pop the queue head, append it to the result, decrement
each dependent's in-degree, enqueue newly-zero dependents.  The fuel never
runs out on well-formed graphs: every iteration appends one element of a
duplicate-free subset of the node names to the result. -/
def kahnLoop (g : Graph) :
    Nat → List String → List String → (String → Int) → List String
  | 0, _, res, _ => res
  | _ + 1, [], res, _ => res
  | fuel + 1, n :: q, res, deg =>
    let step := (g.adjL n).foldl
      (fun (p : List String × (String → Int)) dep =>
        let d := p.2 dep - 1
        (if d = 0 then p.1 ++ [dep] else p.1,
         fun x => if x = dep then d else p.2 x))
      (q, deg)
    kahnLoop g fuel step.1 (res ++ [n]) step.2

/-- `graph_operations.topological_sort`: fail with a `CycleError` when
`has_cycles()`, otherwise run Kahn's algorithm (in-degrees counted from
the edge list, initial queue in node-insertion order) and re-check that
every node was placed. -/
def topologicalSort (g : Graph) : Except CycleError (List String) :=
  if g.hasCycles then
    .error ⟨"Cannot topological sort: graph contains cycles", g.findCycles⟩
  else
    let deg0 : String → Int :=
      fun x => ((g.edges.filter (fun e => e.toNode = x)).length : Int)
    let q0 := g.keys.filter (fun n => deg0 n = 0)
    let res := kahnLoop g (g.keys.length + 1) q0 [] deg0
    if res.length ≠ g.keys.length then
      .error ⟨"Topological sort incomplete - possible cycles detected", g.findCycles⟩
    else
      .ok res

/-- `validation.PolicySeverity`. -/
inductive PolicySeverity where
  | error
  | warning
  | info
  deriving DecidableEq, Repr

/-- `validation.PolicyViolation`.  The free-form `metadata` dict the
source attaches (echoing node/edge provenance) is omitted: no claim and
no downstream computation reads it. -/
structure PolicyViolation where
  ruleName : String
  severity : PolicySeverity
  message : String
  nodeName : Option String := none
  edgeInfo : Option (String × String × DependencyType) := none

/-- `GraphValidator.check_all_nodes_used`: warn on nodes appearing in no
edge, minus the roots. -/
def checkAllNodesUsed (g : Graph) : List PolicyViolation :=
  let used := g.edges.foldl
    (fun acc e => addToSet (addToSet acc e.fromNode) e.toNode) []
  let unused := g.keys.filter (fun n => n ∉ used)
  let unusedNonRoot := unused.filter (fun n => n ∉ g.findRoots)
  unusedNonRoot.map (fun n =>
    { ruleName := "all_nodes_used", severity := .warning,
      message := "Node " ++ n ++ " is defined but never referenced",
      nodeName := some n })

/-- `GraphValidator.check_missing_dependencies`: one error per edge
endpoint absent from the node set (from-endpoint checked first). -/
def checkMissingDependencies (g : Graph) : List PolicyViolation :=
  (g.edges.map (fun e =>
    (if e.fromNode ∉ g.keys then
      [{ ruleName := "no_missing_dependencies", severity := PolicySeverity.error,
         message := "Edge references missing node " ++ e.fromNode,
         nodeName := some e.toNode,
         edgeInfo := some (e.fromNode, e.toNode, e.depType) }]
     else []) ++
    (if e.toNode ∉ g.keys then
      [{ ruleName := "no_missing_dependencies", severity := PolicySeverity.error,
         message := "Edge references missing node " ++ e.toNode,
         nodeName := some e.fromNode,
         edgeInfo := some (e.fromNode, e.toNode, e.depType) }]
     else []))).flatten

/-- `GraphValidator.check_no_undefined_references`: error for every
implicit edge whose source endpoint is not a node. -/
def checkNoUndefinedReferences (g : Graph) : List PolicyViolation :=
  g.edges.filterMap (fun e =>
    if e.depType = .implicit ∧ e.fromNode ∉ g.keys then
      some { ruleName := "no_undefined_references", severity := PolicySeverity.error,
             message := "Implicit reference to undefined variable " ++ e.fromNode
               ++ " in " ++ e.toNode,
             nodeName := some e.toNode,
             edgeInfo := some (e.fromNode, e.toNode, e.depType) }
    else none)

/-- One entry of `GraphDiff.changed_nodes`: the per-field old/new change
record built by `compare_graphs` (a Python dict keyed by field name). -/
structure ChangedNode where
  name : String
  kindChange : Option (NodeKind × NodeKind) := none
  sourceChange : Option (String × String) := none
  authorityChange : Option (Option Yaml × Option Yaml) := none
  filePathChange : Option (Option String × Option String) := none
  lineNumberChange : Option (Option Nat × Option Nat) := none

/-- One entry of `GraphDiff.authority_changes`. -/
structure AuthorityChange where
  node : String
  oldAuthority : Option Yaml
  newAuthority : Option Yaml

/-- `comparison.GraphDiff`.  `affectedNodes` is a Python set, embedded as
a membership list. -/
structure GraphDiff where
  addedNodes : List Node
  removedNodes : List Node
  changedNodes : List ChangedNode
  addedEdges : List Edge
  removedEdges : List Edge
  authorityChanges : List AuthorityChange
  affectedNodes : List String

/-- Dict lookup `graph.nodes[name]` (keys are unique in any
dict-originated node list). -/
def lookupNode (g : Graph) (n : String) : Option Node :=
  (g.nodes.find? (fun p => p.1 == n)).map Prod.snd

/-- `comparison._edge_to_key`: `(from, to, dep_type)` (the source uses
`dep_type.value`, an injective image of the enum). -/
def edgeKey (e : Edge) : String × String × DependencyType :=
  (e.fromNode, e.toNode, e.depType)

/-- The changed-node record `compare_graphs` builds for one common name,
or `none` when no compared field differs. -/
def changedRecord (o w : Node) (n : String) : Option ChangedNode :=
  let kc := if o.kind ≠ w.kind then some (o.kind, w.kind) else none
  let sc := if o.source ≠ w.source then some (o.source, w.source) else none
  let ac := if ¬ Yaml.beqOpt o.authority w.authority then
    some (o.authority, w.authority) else none
  let fc := if o.filePath ≠ w.filePath then some (o.filePath, w.filePath) else none
  let lc := if o.lineNumber ≠ w.lineNumber then
    some (o.lineNumber, w.lineNumber) else none
  if kc.isSome ∨ sc.isSome ∨ ac.isSome ∨ fc.isSome ∨ lc.isSome then
    some { name := n, kindChange := kc, sourceChange := sc,
           authorityChange := ac, filePathChange := fc, lineNumberChange := lc }
  else none

/-- `comparison.compare_graphs`.  Set differences/intersections over node
names and edge keys are embedded as order-preserving list filters (the
source iterates Python sets in arbitrary order; no consumer below depends
on the order).  `get_transitive_dependents` failures propagate, as in the
source. -/
def compareGraphs (oldG newG : Graph) : Except GraphError GraphDiff := do
  let oldNames := oldG.keys
  let newNames := newG.keys
  let addedNames := newNames.filter (fun n => n ∉ oldNames)
  let removedNames := oldNames.filter (fun n => n ∉ newNames)
  let addedNodes := addedNames.filterMap (lookupNode newG)
  let removedNodes := removedNames.filterMap (lookupNode oldG)
  let commonNames := oldNames.filter (fun n => n ∈ newNames)
  let changedNodes := commonNames.filterMap (fun n =>
    match lookupNode oldG n, lookupNode newG n with
    | some o, some w => changedRecord o w n
    | _, _ => none)
  let authorityChanges := commonNames.filterMap (fun n =>
    match lookupNode oldG n, lookupNode newG n with
    | some o, some w =>
      if ¬ Yaml.beqOpt o.authority w.authority then
        some { node := n, oldAuthority := o.authority, newAuthority := w.authority }
      else none
    | _, _ => none)
  let oldKeys := oldG.edges.map edgeKey
  let newKeys := newG.edges.map edgeKey
  let addedEdges := newG.edges.filter
    (fun e => edgeKey e ∈ newKeys.filter (fun k => k ∉ oldKeys))
  let removedEdges := oldG.edges.filter
    (fun e => edgeKey e ∈ oldKeys.filter (fun k => k ∉ newKeys))
  let affected₁ ← removedNames.foldlM
    (fun acc n =>
      if n ∈ newNames then do
        let deps ← newG.getTransitiveDependents n
        pure (unionSet acc deps)
      else pure acc)
    ([] : List String)
  let affected₂ ← removedEdges.foldlM
    (fun acc e =>
      if e.toNode ∈ newNames then do
        let deps ← newG.getTransitiveDependents e.toNode
        pure (unionSet (addToSet acc e.toNode) deps)
      else pure acc)
    affected₁
  let affected₃ ← changedNodes.foldlM
    (fun acc c =>
      if c.name ∈ newNames then do
        let deps ← newG.getTransitiveDependents c.name
        pure (unionSet (addToSet acc c.name) deps)
      else pure acc)
    affected₂
  pure { addedNodes := addedNodes, removedNodes := removedNodes,
         changedNodes := changedNodes, addedEdges := addedEdges,
         removedEdges := removedEdges, authorityChanges := authorityChanges,
         affectedNodes := affected₃ }

/-! ## The extraction layer (`parser.py`, `ast_parser.py`)

The two regexes of `parser.py` are embedded as direct character scanners:
`VARIABLE_REF_PATTERN` (`\b([a-zA-Z_][a-zA-Z0-9_]*)\b`) matches exactly
the maximal word-character runs whose first character is a letter or
underscore, and `OBJECT_ATTR_PATTERN`
(`\b([a-zA-Z_][a-zA-Z0-9_]*)\.([a-zA-Z_][a-zA-Z0-9_]*)\b`) matches two
such runs joined by a dot, scanning left to right without overlap.  The
scanners mirror Python `re` behaviour for ASCII text (the word-boundary
class of the embedding is the pattern's own ASCII character class).
The scanners carry a fuel argument only to make the recursion structural;
`length + 1` is always enough since every step consumes a character. -/

/-- `[a-zA-Z0-9_]`. -/
def isWordChar (c : Char) : Bool := c.isAlpha || c.isDigit || c = '_'

/-- `[a-zA-Z_]`. -/
def isIdentStart (c : Char) : Bool := c.isAlpha || c = '_'

/-- Scanner of `VARIABLE_REF_PATTERN.findall`; the Boolean tracks whether
the previous character was a word character (the `\b` test). -/
def identScanAux : Nat → List Char → Bool → List String
  | 0, _, _ => []
  | _, [], _ => []
  | fuel + 1, c :: cs, prev =>
    if !prev && isIdentStart c then
      String.mk (c :: cs.takeWhile isWordChar) ::
        identScanAux fuel (cs.dropWhile isWordChar) true
    else identScanAux fuel cs (isWordChar c)

/-- `VARIABLE_REF_PATTERN.findall(text)`. -/
def findIdents (s : String) : List String :=
  identScanAux (s.length + 1) s.toList false

/-- Scanner of `OBJECT_ATTR_PATTERN.findall`. -/
def objAttrScanAux : Nat → List Char → Bool → List (String × String)
  | 0, _, _ => []
  | _, [], _ => []
  | fuel + 1, c :: cs, prev =>
    if !prev && isIdentStart c then
      match cs.dropWhile isWordChar with
      | '.' :: c2 :: rest2 =>
        if isIdentStart c2 then
          (String.mk (c :: cs.takeWhile isWordChar),
           String.mk (c2 :: rest2.takeWhile isWordChar)) ::
            objAttrScanAux fuel (rest2.dropWhile isWordChar) true
        else objAttrScanAux fuel ('.' :: c2 :: rest2) true
      | rest1 => objAttrScanAux fuel rest1 true
    else objAttrScanAux fuel cs (isWordChar c)

/-- `OBJECT_ATTR_PATTERN.findall(text)`. -/
def findObjAttrs (s : String) : List (String × String) :=
  objAttrScanAux (s.length + 1) s.toList false

/-- Python `needle in hay` on strings (substring containment). -/
def containsAux (needle : List Char) : List Char → Bool
  | [] => needle.isEmpty
  | c :: cs => needle.isPrefixOf (c :: cs) || containsAux needle cs

/-- Python `needle in hay` on strings. -/
def strContains (hay needle : String) : Bool :=
  containsAux needle.toList hay.toList

/-- Python `str.strip()` with no argument: drop leading and trailing
whitespace. -/
def pyStrip (s : String) : String :=
  String.mk (((s.toList.dropWhile Char.isWhitespace).reverse.dropWhile
    Char.isWhitespace).reverse)

/-- Split a character list wherever the predicate holds, keeping empty
pieces (as Python `str.split(sep)` does). -/
def splitPredAux (p : Char → Bool) : List Char → List Char → List String
  | [], acc => [String.mk acc.reverse]
  | c :: cs, acc =>
    if p c then String.mk acc.reverse :: splitPredAux p cs []
    else splitPredAux p cs (c :: acc)

/-- Python `str.startswith`. -/
def strStartsWith (s pre : String) : Bool :=
  pre.toList.isPrefixOf s.toList

/-- The Python-keyword set of `ast_parser.should_use_ast_parsing`. -/
def pythonKeywords : List String :=
  ["def", "class", "if", "elif", "else", "for", "while", "try", "except",
   "finally", "with", "import", "from", "return", "yield", "raise", "assert",
   "break", "continue", "pass", "lambda", "async", "await"]

/-- Python `str.split()` with no separator: split on whitespace runs,
dropping empty pieces. -/
def pySplitWhitespace (t : String) : List String :=
  (splitPredAux Char.isWhitespace t.toList []).filter (fun w => w ≠ "")

/-- `ast_parser.should_use_ast_parsing`. -/
def shouldUseAstParsing (text : String) : Bool :=
  if pyStrip text = "" then false
  else if (pySplitWhitespace text).any (fun w => w ∈ pythonKeywords) then true
  else
    let lines :=
      ((splitPredAux (fun c => c = Char.ofNat 10) text.toList []).map
        pyStrip).filter (fun l => l ≠ "")
    if lines.length > 2 then true
    else if lines.length > 1 then
      lines.any (fun l => l.toList.contains '=' || l.toList.contains ':')
    else false

/-- `MAX_AST_NODES` of `ast_parser.py`. -/
def maxAstNodes : Nat := 10000

/-- `MAX_AST_DEPTH` of `ast_parser.py`. -/
def maxAstDepth : Nat := 100

/-- `MAX_CODE_SIZE` of `ast_parser.py`. -/
def maxCodeSize : Nat := 100000

/-- The observations the code makes of a parsed Python syntax tree: the
`ast.walk` node count, the tree depth, and the `VariableVisitor` outputs
(loaded names, attribute-access objects, `(object, attribute)` pairs —
Python sets, embedded as membership lists). -/
structure PyTreeInfo where
  nodeCount : Nat
  depth : Nat
  vars : List String
  objs : List String
  attrs : List (String × String)

/-- `ast_parser.extract_variables_from_python_ast`, parameterized by an
oracle for CPython's `ast.parse` (`none` models a parse failure of any
kind — the source converts `SyntaxError`, `RecursionError` and any other
exception into an empty result).  Note that every rejection path returns
the empty triple without raising: the function never signals failure to
its caller. -/
def extractVariablesFromPythonAst (parse : String → Option PyTreeInfo)
    (code : String) : List String × List String × List (String × String) :=
  if pyStrip code = "" then ([], [], [])
  else if code.length > maxCodeSize then ([], [], [])
  else
    match parse code with
    | none => ([], [], [])
    | some t =>
      if t.nodeCount > maxAstNodes then ([], [], [])
      else if t.depth > maxAstDepth then ([], [], [])
      else (t.vars, t.objs, t.attrs)

/-- The edge accumulator of `DocassembleParser.extract_edges`: the edge
list and the `(from, to)` seen-set. -/
structure EdgeState where
  edges : List Edge
  seen : List (String × String)

/-- The `add_edge` helper of `extract_edges`: append only if both
endpoints are keys of the node mapping, the pair is unseen, and it is not
a self-loop. -/
def addEdge (nodes : List (String × Node)) (filePath : Option String)
    (st : EdgeState) (fromN toN : String) (dt : DependencyType)
    (ln : Option Nat) : EdgeState :=
  if fromN ∈ nodes.map Prod.fst ∧ toN ∈ nodes.map Prod.fst then
    if (fromN, toN) ∉ st.seen ∧ fromN ≠ toN then
      { edges := st.edges ++ [⟨fromN, toN, dt, filePath, ln⟩],
        seen := st.seen ++ [(fromN, toN)] }
    else st
  else st

/-- The pattern-based fallback strategy (strategy 2) of
`_extract_implicit_dependencies`: resolve object-attribute matches first
(recording the object part and excluding it from the bare-identifier
scan), then scan bare identifiers.  This is the branch the spec says a
rejected syntax-tree analysis falls back to. -/
def regexFallbackExtract (nodes : List (String × Node))
    (filePath : Option String) (text dstName : String)
    (lineNum : Option Nat) (st : EdgeState) : EdgeState :=
  let objAttrs := findObjAttrs text
  let step1 := objAttrs.foldl (fun (p : EdgeState × List String) oa =>
      if oa.1 ≠ dstName ∧ oa.1 ∉ p.2 then
        (addEdge nodes filePath p.1 oa.1 dstName .implicit lineNum,
         p.2 ++ [oa.1])
      else p) (st, [])
  (findIdents text).foldl (fun acc ref =>
      if ref ≠ dstName ∧ ref ∉ step1.2 ∧
          ¬(objAttrs.any (fun oa => ref = oa.1)) then
        addEdge nodes filePath acc ref dstName .implicit lineNum
      else acc) step1.1

/-- `DocassembleParser._extract_implicit_dependencies`.  When the fragment
is routed to syntax-tree analysis, `extractVariablesFromPythonAst` is
total (it converts all of its own failures into empty sets), so the
source's surrounding `try/except`-to-regex handler is unreachable and the
function returns after the AST branch; only fragments routed away from
syntax-tree analysis reach the regex strategy. -/
def extractImplicitDependencies (parse : String → Option PyTreeInfo)
    (nodes : List (String × Node)) (filePath : Option String)
    (text dstName : String) (lineNum : Option Nat) (st : EdgeState) :
    EdgeState :=
  if pyStrip text = "" then st
  else if shouldUseAstParsing text then
    let out := extractVariablesFromPythonAst parse text
    let step1 := out.2.2.foldl (fun (p : EdgeState × List String) oa =>
        if oa.1 ≠ dstName ∧ oa.1 ∉ p.2 then
          (addEdge nodes filePath p.1 oa.1 dstName .implicit lineNum,
           p.2 ++ [oa.1])
        else p) (st, [])
    out.1.foldl (fun acc v =>
        if v ≠ dstName ∧ v ∉ step1.2 ∧ v ∉ out.2.1 then
          addEdge nodes filePath acc v dstName .implicit lineNum
        else acc) step1.1
  else
    regexFallbackExtract nodes filePath text dstName lineNum st

/-! ### The parser object and node/edge extraction -/

/-- Truthiness of an embedded YAML value (Python `bool(x)`). -/
def yamlTruthy : Yaml → Bool
  | .str s => s ≠ ""
  | .list l => !l.isEmpty
  | .map m => !m.isEmpty
  | .other b => b

/-- `d.get(k)` on an embedded YAML mapping. -/
def yGet (m : List (String × Yaml)) (k : String) : Option Yaml :=
  (m.find? (fun p => p.1 == k)).map Prod.snd

/-- `k in d` on an embedded YAML mapping. -/
def yHas (m : List (String × Yaml)) (k : String) : Bool :=
  (m.find? (fun p => p.1 == k)).isSome

/-- Python `a or b` over optional YAML values (`None` and falsy values
fall through to `b`). -/
def yamlOr (a b : Option Yaml) : Option Yaml :=
  match a with
  | some v => if yamlTruthy v then some v else b
  | none => b

/-- The entries of a YAML value when it is a mapping, else none. -/
def yFields : Yaml → List (String × Yaml)
  | .map m => m
  | _ => []

/-- The state a constructed `DocassembleParser` carries into extraction:
the merged document mapping, the raw text split into lines, and the
provenance path. -/
structure Parser where
  raw : List (String × Yaml)
  yamlLines : List String
  filePath : Option String := none

/-- `DocassembleParser._get_name`: first string value under
`name`/`id`/`variable`/`field`, in that order; a present non-string value
falls through to the next key. -/
def getName (item : Yaml) : Option String :=
  match item with
  | .map m =>
    ["name", "id", "variable", "field"].foldl (fun acc k =>
      match acc with
      | some _ => acc
      | none =>
        match yGet m k with
        | some (.str s) => some s
        | _ => none) none
  | _ => none

/-- The line predicate of `_find_line_number*`: the name occurs in the
line, and so does `name: <name>`, `"<name>"` or `'<name>'`. -/
def lineMatches (name line : String) : Bool :=
  let q := String.singleton (Char.ofNat 39)
  strContains line name &&
    (strContains line ("name: " ++ name) ||
     strContains line ("\"" ++ name ++ "\"") ||
     strContains line (q ++ name ++ q))

/-- 1-based scan for the first matching line. -/
def findLineScan (lines : List String) (name : String) (i : Nat) :
    Option Nat :=
  match lines with
  | [] => none
  | l :: rest =>
    if lineMatches name l then some i else findLineScan rest name (i + 1)

/-- `DocassembleParser._find_line_number_by_name`. -/
def findLineNumberByName (p : Parser) (name : String) : Option Nat :=
  if p.yamlLines.isEmpty || name = "" then none
  else findLineScan p.yamlLines name 1

/-- `DocassembleParser._find_line_number` (its `key` parameter is unused
by the source body and is dropped here). -/
def findLineNumber (p : Parser) (item : Yaml) : Option Nat :=
  if p.yamlLines.isEmpty then none
  else
    match getName item with
    | none => none
    | some name =>
      if name = "" then none else findLineScan p.yamlLines name 1

/-- Key-membership test on the node dictionary. -/
def dictHas (m : List (String × Node)) (k : String) : Bool :=
  decide (k ∈ m.map Prod.fst)

/-- Python dict assignment `nodes[k] = v`: overwrite in place when the
key exists (keeping its insertion position), else append. -/
def dictInsert (m : List (String × Node)) (k : String) (v : Node) :
    List (String × Node) :=
  if k ∈ m.map Prod.fst then
    m.map (fun p => if p.1 == k then (k, v) else p)
  else m ++ [(k, v)]

/-- The standard-section/directive keys skipped by the custom-top-level
pass of `extract_nodes`. -/
def skipKeys : List String :=
  ["questions", "variables", "fields", "rules",
   "metadata", "modules", "module", "include",
   "objects", "imports", "event",
   "attachments", "table", "review",
   "features", "default role", "role",
   "sections", "progress", "auto terms",
   "ga id", "interview help", "continue button label",
   "question", "variable", "field", "expression", "code"]

/-- Items of a top-level section when it is a list, else `[]` (the
source's `items = raw.get(key, []); if not isinstance(items, list):`). -/
def sectionItems (p : Parser) (k : String) : List Yaml :=
  match yGet p.raw k with
  | some (.list l) => l
  | _ => []

/-- `DocassembleParser.extract_nodes`.  A non-string `variable`/`field`
value under a question would make Python insert a node under a non-string
key; such keys are unrepresentable here and are skipped — they can never
be referenced by a (string-keyed) edge endpoint, so no analysed behaviour
changes. -/
def extractNodes (p : Parser) : List (String × Node) :=
  let varItems :=
    (match yGet p.raw "fields" with | some (.list l) => l | _ => []) ++
    (match yGet p.raw "variables" with | some (.list l) => l | _ => [])
  let nodes := varItems.foldl (fun nodes var =>
    match getName var with
    | none => nodes
    | some name =>
      if name = "" then nodes
      else
        let m := yFields var
        let hasExpr := match yamlOr (yGet m "expression") (yGet m "code") with
          | some v => yamlTruthy v
          | none => false
        dictInsert nodes name
          ⟨name,
           if strStartsWith name "AL_" then NodeKind.assemblyLine
           else NodeKind.variable,
           if hasExpr then "derived" else "user_input",
           yamlOr (yGet m "authority") (yGet m "statute"),
           p.filePath, findLineNumberByName p name, []⟩) ([] : List (String × Node))
  let nodes := (sectionItems p "questions").foldl (fun nodes q =>
    match getName q with
    | none => nodes
    | some name =>
      if name = "" then nodes
      else
        let m := yFields q
        let nodes := dictInsert nodes name
          ⟨name, NodeKind.question, "user_input",
           yamlOr (yGet m "authority") (yGet m "statute"),
           p.filePath, findLineNumber p q, []⟩
        match yamlOr (yGet m "variable") (yGet m "field") with
        | some (.str s) =>
          if s ≠ "" ∧ ¬ dictHas nodes s then
            dictInsert nodes s
              ⟨s, NodeKind.variable, "user_input", none, p.filePath,
               findLineNumber p q, []⟩
          else nodes
        | _ => nodes) nodes
  let nodes := (sectionItems p "rules").foldl (fun nodes rule =>
    match getName rule with
    | none => nodes
    | some name =>
      if name = "" then nodes
      else
        let m := yFields rule
        dictInsert nodes name
          ⟨name, NodeKind.rule, "derived",
           yamlOr (yGet m "authority") (yGet m "statute"),
           p.filePath, findLineNumber p rule, []⟩) nodes
  let nodes := (sectionItems p "objects").foldl (fun nodes objDef =>
    match objDef with
    | .map entries =>
      entries.foldl (fun nodes kv =>
        if ¬ dictHas nodes kv.1 then
          dictInsert nodes kv.1
            ⟨kv.1, NodeKind.variable, "derived", none, p.filePath,
             findLineNumberByName p kv.1, [("object_type", kv.2)]⟩
        else nodes) nodes
    | _ => nodes) nodes
  let nodes :=
    if yHas p.raw "question" then
      let name := match getName (.map p.raw) with
        | some s => if s ≠ "" then s else "top_level_question"
        | none => "top_level_question"
      let nodes :=
        if ¬ dictHas nodes name then
          dictInsert nodes name
            ⟨name, NodeKind.question, "user_input",
             yamlOr (yGet p.raw "authority") (yGet p.raw "statute"),
             p.filePath, findLineNumberByName p name, []⟩
        else nodes
      match yamlOr (yGet p.raw "variable") (yGet p.raw "field") with
      | some (.str s) =>
        if s ≠ "" ∧ ¬ dictHas nodes s then
          dictInsert nodes s
            ⟨s, NodeKind.variable, "user_input", none, p.filePath,
             findLineNumberByName p s, []⟩
        else nodes
      | _ => nodes
    else if yHas p.raw "expression" || yHas p.raw "code" then
      let name := match getName (.map p.raw) with
        | some s => if s ≠ "" then s else "top_level_variable"
        | none => "top_level_variable"
      if ¬ dictHas nodes name then
        dictInsert nodes name
          ⟨name, NodeKind.variable, "derived",
           yamlOr (yGet p.raw "authority") (yGet p.raw "statute"),
           p.filePath, findLineNumberByName p name, []⟩
      else nodes
    else nodes
  p.raw.foldl (fun nodes kv =>
    if kv.1 ∈ skipKeys then nodes
    else
      match kv.2 with
      | .map m =>
        if yHas m "question" then
          let name := match getName kv.2 with
            | some s => if s ≠ "" then s else kv.1
            | none => kv.1
          let nodes :=
            if ¬ dictHas nodes name then
              dictInsert nodes name
                ⟨name, NodeKind.question, "user_input",
                 yamlOr (yGet m "authority") (yGet m "statute"),
                 p.filePath, findLineNumber p kv.2, []⟩
            else nodes
          match yamlOr (yGet m "variable") (yGet m "field") with
          | some (.str s) =>
            if s ≠ "" ∧ ¬ dictHas nodes s then
              dictInsert nodes s
                ⟨s, NodeKind.variable, "user_input", none, p.filePath,
                 findLineNumber p kv.2, []⟩
            else nodes
          | _ => nodes
        else if yHas m "expression" || yHas m "code" then
          let name := match getName kv.2 with
            | some s => if s ≠ "" then s else kv.1
            | none => kv.1
          if ¬ dictHas nodes name then
            dictInsert nodes name
              ⟨name, NodeKind.variable, "derived",
               yamlOr (yGet m "authority") (yGet m "statute"),
               p.filePath, findLineNumber p kv.2, []⟩
          else nodes
        else nodes
      | _ => nodes) nodes

/-- The explicit-dependency directive keys of `extract_edges`. -/
def explicitDepKeys : List String :=
  ["depends on", "depends_on", "required", "requires", "mandatory"]

/-- The text fields scanned for implicit references by `extract_edges`. -/
def textFieldKeys : List String :=
  ["expression", "template", "question", "choices", "default", "code"]

/-- Explicit-directive edges of one item (the inner `dep_key` loop of
`extract_edges`). -/
def explicitEdgesOfItem (p : Parser) (nodes : List (String × Node))
    (item : Yaml) (dstName : String) (st : EdgeState) : EdgeState :=
  explicitDepKeys.foldl (fun st depKey =>
    match yGet (yFields item) depKey with
    | some deps =>
      if yamlTruthy deps then
        let depsList := match deps with | .list l => l | d => [d]
        let ln := findLineNumber p item
        depsList.foldl (fun st dep =>
          match dep with
          | .str s => addEdge nodes p.filePath st s dstName .explicit ln
          | _ => st) st
      else st
    | none => st) st

/-- Implicit text-field edges of one item (the `text_fields` loop of
`extract_edges`). -/
def implicitEdgesOfItem (parse : String → Option PyTreeInfo) (p : Parser)
    (nodes : List (String × Node)) (item : Yaml) (dstName : String)
    (st : EdgeState) : EdgeState :=
  textFieldKeys.foldl (fun st fieldName =>
    match yGet (yFields item) fieldName with
    | some (.str text) =>
      extractImplicitDependencies parse nodes p.filePath text dstName
        (findLineNumber p item) st
    | _ => st) st

/-- `DocassembleParser.extract_edges`, parameterized by the `ast.parse`
oracle and by an oracle for `conditional.extract_conditionals_from_item`
(which returns the `.dependencies` name lists of the conditional
dependencies it builds; the property proved about `extract_edges` below
holds for every behaviour of these collaborators). -/
def extractEdges (parse : String → Option PyTreeInfo)
    (condOracle : Yaml → String → Option Nat → List (List String))
    (p : Parser) (nodes : List (String × Node)) : List Edge :=
  let st : EdgeState := ⟨[], []⟩
  let st := ["questions", "rules", "variables", "fields"].foldl (fun st k =>
    (sectionItems p k).foldl (fun st item =>
      match getName item with
      | none => st
      | some dstName =>
        if dstName = "" then st
        else
          let st := explicitEdgesOfItem p nodes item dstName st
          let ln := findLineNumber p item
          (condOracle item dstName ln).foldl (fun st deps =>
            deps.foldl (fun st depVar =>
              if depVar ∈ nodes.map Prod.fst then
                addEdge nodes p.filePath st depVar dstName .implicit ln
              else st) st) st) st) st
  let st := ["questions", "rules", "variables", "fields"].foldl (fun st k =>
    (sectionItems p k).foldl (fun st item =>
      match getName item with
      | none => st
      | some dstName =>
        if dstName = "" then st
        else implicitEdgesOfItem parse p nodes item dstName st) st) st
  let st := p.raw.foldl (fun st kv =>
    if kv.1 ∈ (["questions", "variables", "fields", "rules"] : List String) then
      st
    else
      match kv.2 with
      | .map _ =>
        let dstName := match getName kv.2 with
          | some s => if s ≠ "" then s else kv.1
          | none => kv.1
        let st := explicitEdgesOfItem p nodes kv.2 dstName st
        implicitEdgesOfItem parse p nodes kv.2 dstName st
      | _ => st) st
  st.edges

/-! ## Specification-side notions used by the proofs

`TopoOk` and `ReachP` are not part of the embedded code; they are the
graph-theoretic vocabulary the theorems are stated and proved with. -/

/-- A list of node names is `TopoOk` when every entry's direct dependents
(its adjacency targets) occur strictly earlier in the list: the reverse of
such a list is a topological order.  A clean (cycle-free) run of the
source's DFS finishes nodes in exactly this discipline. -/
inductive TopoOk (g : Graph) : List String → Prop where
  | nil : TopoOk g []
  | snoc (L : List String) (u : String) (hL : TopoOk g L)
      (hadj : ∀ v ∈ g.adjL u, v ∈ L) : TopoOk g (L ++ [u])

/-- Nonempty forward reachability along the adjacency (`v` transitively
depends on `u`). -/
inductive ReachP (g : Graph) : String → String → Prop where
  | single {u v : String} : v ∈ g.adjL u → ReachP g u v
  | tail {u v w : String} : ReachP g u v → w ∈ g.adjL v → ReachP g u w

/-- Number of graph keys not yet visited: the fuel measure of the DFS
embeddings. -/
def unvisitedCount (g : Graph) (V : List String) : Nat :=
  (g.keys.toFinset \ V.toFinset).card

/-- The invariant a clean DFS run maintains: `L` lists exactly the
finished nodes (visited and off the current path), without duplicates, in
finishing order — which is a `TopoOk` discipline. -/
def DfsInv (g : Graph) (L V path : List String) : Prop :=
  L.Nodup ∧ (∀ x, x ∈ L ↔ (x ∈ V ∧ x ∉ path)) ∧ TopoOk g L

/-- The initial in-degree of `x` (Kahn's algorithm counts it from the edge
list). -/
def degInit (g : Graph) (x : String) : Nat :=
  (g.edges.filter (fun e => e.toNode = x)).length

/-- The number of edges into `x` whose source has already been placed in
`res`: the amount Kahn's loop has decremented `x`'s in-degree by. -/
def inCnt (g : Graph) (res : List String) (x : String) : Nat :=
  ((g.edges.filter (fun e => e.toNode = x)).filter
    (fun e => e.fromNode ∈ res)).length

/-- The invariant of Kahn's queue-draining loop: placed-plus-queued names
are distinct graph keys, the degree function counts the not-yet-placed
in-edges, zero-degree keys are placed or queued, placed names respect the
edge order, and queued names have degree zero. -/
def KahnInv (g : Graph) (q res : List String) (deg : String → Int) : Prop :=
  (res ++ q).Nodup ∧ (∀ x ∈ res ++ q, x ∈ g.keys) ∧
  (∀ x, deg x = (degInit g x : Int) - (inCnt g res x : Int)) ∧
  (∀ x ∈ g.keys, deg x = 0 → x ∈ res ++ q) ∧
  (∀ e ∈ g.edges, e.toNode ∈ res → e.fromNode ∈ res ∧
    res.indexOf e.fromNode < res.indexOf e.toNode) ∧
  (∀ x ∈ q, deg x = 0)

/-! ## Concrete fixtures used by witnesses and counterexamples -/

/-- A plain user-input variable node. -/
def nodeV (n : String) : Node :=
  { name := n, kind := .variable, source := "user_input" }

/-- A bare explicit edge. -/
def edgeE (a b : String) : Edge :=
  { fromNode := a, toNode := b, depType := .explicit }

/-- Old graph of the diff-impact scenario: `A → B → C`. -/
def oldChainGraph : Graph :=
  ⟨[("A", nodeV "A"), ("B", nodeV "B"), ("C", nodeV "C")],
   [edgeE "A" "B", edgeE "B" "C"]⟩

/-- New graph of the diff-impact scenario: edge `A → B` removed. -/
def newChainGraph : Graph :=
  ⟨[("A", nodeV "A"), ("B", nodeV "B"), ("C", nodeV "C")], [edgeE "B" "C"]⟩

/-- A two-node cycle `A ⇄ B`. -/
def cycleGraph : Graph :=
  ⟨[("A", nodeV "A"), ("B", nodeV "B")], [edgeE "A" "B", edgeE "B" "A"]⟩

/-- The property `add_edge` enforces on every edge it appends: both
endpoints are keys of the node mapping it closes over, and the edge is
not a self-loop. -/
def EdgeOk (nodes : List (String × Node)) (e : Edge) : Prop :=
  e.fromNode ∈ nodes.map Prod.fst ∧ e.toNode ∈ nodes.map Prod.fst ∧
    e.fromNode ≠ e.toNode

/-- Node mapping for the fallback-divergence scenario: the fragment
references `x`, which is a defined entity. -/
def c3Nodes : List (String × Node) := [("x", nodeV "x"), ("owner", nodeV "owner")]

/-- Parsed document for the end-to-end attribute-access scenario: an
object entity `obj` and a derived variable `result` whose expression text
is exactly `obj.attr`. -/
def c5Raw : List (String × Yaml) :=
  [("objects", .list [.map [("obj", .str "Individual")]]),
   ("variables", .list [.map [("name", .str "result"),
                              ("expression", .str "obj.attr")]])]

/-- Parser state holding `c5Raw` (no source lines, no file path). -/
def c5Parser : Parser := ⟨c5Raw, [], none⟩

/-! ## Basic lemmas about the construction scan and membership sets -/

mutual

theorem Yaml.beq_refl : (y : Yaml) → Yaml.beq y y = true
  | .str _ => by simp [Yaml.beq]
  | .list l => by simpa [Yaml.beq] using Yaml.beqList_refl l
  | .map m => by simpa [Yaml.beq] using Yaml.beqPairs_refl m
  | .other _ => by simp [Yaml.beq]

theorem Yaml.beqList_refl : (l : List Yaml) → Yaml.beqList l l = true
  | [] => rfl
  | y :: ys => by simp [Yaml.beqList, Yaml.beq_refl y, Yaml.beqList_refl ys]

theorem Yaml.beqPairs_refl : (l : List (String × Yaml)) → Yaml.beqPairs l l = true
  | [] => rfl
  | (k, v) :: ys => by
    simp [Yaml.beqPairs, Yaml.beq_refl v, Yaml.beqPairs_refl ys]

end

theorem Yaml.beqOpt_refl (o : Option Yaml) : Yaml.beqOpt o o = true := by
  cases o with
  | none => rfl
  | some v => simpa [Yaml.beqOpt] using Yaml.beq_refl v

theorem checkEdges_spec (ks : List String) :
    ∀ edges : List Edge,
      (∃ e ∈ edges, e.fromNode ∉ ks ∨ e.toNode ∉ ks) →
      ∃ err, checkEdges ks edges = some err ∧
        ∃ n, err.nodeName = some n ∧ n ∉ ks ∧
          ∃ e ∈ edges, n = e.fromNode ∨ n = e.toNode := by
  intro edges
  induction edges with
  | nil => rintro ⟨e, he, -⟩; exact absurd he (List.not_mem_nil e)
  | cons a rest ih =>
    intro hbad
    by_cases hfrom : a.fromNode ∈ ks
    · by_cases hto : a.toNode ∈ ks
      · have hrest : ∃ e ∈ rest, e.fromNode ∉ ks ∨ e.toNode ∉ ks := by
          obtain ⟨e, he, hor⟩ := hbad
          rcases List.mem_cons.mp he with rfl | hmem
          · rcases hor with h | h
            · exact absurd hfrom h
            · exact absurd hto h
          · exact ⟨e, hmem, hor⟩
        obtain ⟨err, herr, n, hn, hnks, e, he, hend⟩ := ih hrest
        refine ⟨err, ?_, n, hn, hnks, e, List.mem_cons_of_mem _ he, hend⟩
        simpa [checkEdges, hfrom, hto] using herr
      · refine ⟨⟨"Edge references non-existent node " ++ a.toNode, some a.toNode⟩,
          ?_, a.toNode, rfl, hto, a, List.mem_cons_self _ _, Or.inr rfl⟩
        simp [checkEdges, hfrom, hto]
    · refine ⟨⟨"Edge references non-existent node " ++ a.fromNode, some a.fromNode⟩,
        ?_, a.fromNode, rfl, hfrom, a, List.mem_cons_self _ _, Or.inl rfl⟩
      simp [checkEdges, hfrom]

theorem checkEdges_none (ks : List String) :
    ∀ edges : List Edge,
      (∀ e ∈ edges, e.fromNode ∈ ks ∧ e.toNode ∈ ks) →
      checkEdges ks edges = none := by
  intro edges
  induction edges with
  | nil => intro; rfl
  | cons a rest ih =>
    intro h
    have ha := h a (List.mem_cons_self _ _)
    have hrest := ih (fun e he => h e (List.mem_cons_of_mem _ he))
    simp [checkEdges, ha.1, ha.2, hrest]

theorem mem_addToSet {l : List String} {x y : String} :
    y ∈ addToSet l x ↔ y ∈ l ∨ y = x := by
  unfold addToSet
  by_cases h : x ∈ l
  · simp only [if_pos h]
    constructor
    · exact Or.inl
    · rintro (hy | rfl) <;> [exact hy; exact h]
  · simp [if_neg h]

theorem mem_usedFold (edges : List Edge) :
    ∀ (acc : List String) (x : String),
      x ∈ edges.foldl (fun acc e => addToSet (addToSet acc e.fromNode) e.toNode) acc ↔
        x ∈ acc ∨ ∃ e ∈ edges, x = e.fromNode ∨ x = e.toNode := by
  induction edges with
  | nil => intro acc x; simp
  | cons a rest ih =>
    intro acc x
    rw [List.foldl_cons, ih]
    constructor
    · rintro (hacc | he)
      · rcases mem_addToSet.mp hacc with hacc | rfl
        · rcases mem_addToSet.mp hacc with hacc | rfl
          · exact Or.inl hacc
          · exact Or.inr ⟨a, List.mem_cons_self _ _, Or.inl rfl⟩
        · exact Or.inr ⟨a, List.mem_cons_self _ _, Or.inr rfl⟩
      · obtain ⟨e, he, hor⟩ := he
        exact Or.inr ⟨e, List.mem_cons_of_mem _ he, hor⟩
    · rintro (hacc | ⟨e, he, hor⟩)
      · exact Or.inl (mem_addToSet.mpr (Or.inl (mem_addToSet.mpr (Or.inl hacc))))
      · rcases List.mem_cons.mp he with rfl | hmem
        · rcases hor with rfl | rfl
          · exact Or.inl (mem_addToSet.mpr (Or.inl (mem_addToSet.mpr (Or.inr rfl))))
          · exact Or.inl (mem_addToSet.mpr (Or.inr rfl))
        · exact Or.inr ⟨e, hmem, hor⟩

/-! ## C1, C8, C9 -/

/-- C1: constructing a `DependencyGraph` from a node mapping and an edge
list containing an edge with an endpoint that is not a key of the mapping
raises a structural `GraphError` whose `node_name` identifies the
offending (absent) entity name, and no graph object is produced. -/
theorem c1_construction_rejects_dangling_edges
    (nodes : List (String × Node)) (edges : List Edge)
    (hbad : ∃ e ∈ edges,
      e.fromNode ∉ nodes.map Prod.fst ∨ e.toNode ∉ nodes.map Prod.fst) :
    ∃ err, mkGraph nodes edges = .error err ∧
      ∃ n, err.nodeName = some n ∧ n ∉ nodes.map Prod.fst ∧
        ∃ e ∈ edges, n = e.fromNode ∨ n = e.toNode := by
  obtain ⟨err, herr, hrest⟩ := checkEdges_spec (nodes.map Prod.fst) edges hbad
  exact ⟨err, by simp [mkGraph, herr], hrest⟩

/-- Witness for C1 at a concrete input: one node `A` and an edge `A → B`
with `B` absent from the mapping. -/
theorem c1_witness :
    (∃ e ∈ [Edge.mk "A" "B" .explicit none none],
      e.fromNode ∉ ["A"] ∨ e.toNode ∉ ["A"]) ∧
    ∃ err, mkGraph [("A", ⟨"A", .variable, "user_input", none, none, none, []⟩)]
        [Edge.mk "A" "B" .explicit none none] = .error err ∧
      ∃ n, err.nodeName = some n ∧ n ∉ ["A"] ∧
        ∃ e ∈ [Edge.mk "A" "B" .explicit none none],
          n = e.fromNode ∨ n = e.toNode := by
  have hbad : ∃ e ∈ [Edge.mk "A" "B" .explicit none none],
      e.fromNode ∉ ["A"] ∨ e.toNode ∉ ["A"] :=
    ⟨_, List.mem_singleton.mpr rfl, Or.inr (by decide)⟩
  exact ⟨hbad, c1_construction_rejects_dangling_edges _ _ hbad⟩

/-- C8 counterexample: the constructor accepts a node mapping whose only
key is the empty string (no entity-name validation exists in
`DependencyGraph.__init__`), refuting the claimed rejection. -/
theorem c8_counterexample_empty_name_accepted :
    mkGraph [("", ⟨"", .variable, "user_input", none, none, none, []⟩)] [] =
      .ok ⟨[("", ⟨"", .variable, "user_input", none, none, none, []⟩)], []⟩ ∧
    "" ∈ ([("", Node.mk "" .variable "user_input" none none none [])].map Prod.fst) :=
  ⟨rfl, by decide⟩

/-- C8 (amended): construction performs no validation of entity-name
contents.  Any node mapping — including one containing an empty-string
name — is accepted whenever every edge endpoint is a key of the mapping,
and the stored graph is exactly the given data. -/
theorem c8_construction_accepts_any_names
    (nodes : List (String × Node)) (edges : List Edge)
    (hok : ∀ e ∈ edges,
      e.fromNode ∈ nodes.map Prod.fst ∧ e.toNode ∈ nodes.map Prod.fst) :
    mkGraph nodes edges = .ok ⟨nodes, edges⟩ := by
  simp [mkGraph, checkEdges_none _ _ hok]

/-- Witness for C8 (amended) at the empty-string-name mapping. -/
theorem c8_witness :
    (∀ e ∈ ([] : List Edge),
      e.fromNode ∈ [("", Node.mk "" .variable "user_input" none none none [])].map Prod.fst ∧
      e.toNode ∈ [("", Node.mk "" .variable "user_input" none none none [])].map Prod.fst) ∧
    mkGraph [("", ⟨"", .variable, "user_input", none, none, none, []⟩)] [] =
      .ok ⟨[("", ⟨"", .variable, "user_input", none, none, none, []⟩)], []⟩ := by
  refine ⟨fun e he => absurd he (List.not_mem_nil e), ?_⟩
  exact c8_construction_accepts_any_names _ _ (fun e he => absurd he (List.not_mem_nil e))

theorem changedRecord_self (o : Node) (n : String) : changedRecord o o n = none := by
  unfold changedRecord
  simp [Yaml.beqOpt_refl]

/-- C7: diffing any graph against itself yields empty added/removed/changed
node lists, empty added/removed edge lists, an empty authority-change list
and an empty affected-entity set. -/
theorem c7_self_diff_empty (g : Graph) :
    compareGraphs g g = .ok ⟨[], [], [], [], [], [], []⟩ := by
  unfold compareGraphs
  have hdiff : List.filter (fun n => decide (n ∉ g.keys)) g.keys = [] := by
    rw [List.filter_eq_nil_iff]
    intro a ha
    simp [ha]
  have hkeysdiff : List.filter (fun k => decide (k ∉ g.edges.map edgeKey))
      (g.edges.map edgeKey) = [] := by
    rw [List.filter_eq_nil_iff]
    intro a ha
    simp [ha]
  have hememp : List.filter
      (fun e => decide (edgeKey e ∈ ([] : List (String × String × DependencyType))))
      g.edges = [] := by
    simp
  have hchanged : (List.filter (fun n => decide (n ∈ g.keys)) g.keys).filterMap
      (fun n => match lookupNode g n, lookupNode g n with
        | some o, some w => changedRecord o w n
        | _, _ => none) = [] := by
    rw [List.filterMap_eq_nil_iff]
    intro a _
    cases lookupNode g a with
    | none => rfl
    | some o => exact changedRecord_self o a
  have hauth : (List.filter (fun n => decide (n ∈ g.keys)) g.keys).filterMap
      (fun n => match lookupNode g n, lookupNode g n with
        | some o, some w =>
          if ¬ Yaml.beqOpt o.authority w.authority then
            some { node := n, oldAuthority := o.authority,
                   newAuthority := w.authority }
          else none
        | _, _ => none) = ([] : List AuthorityChange) := by
    rw [List.filterMap_eq_nil_iff]
    intro a _
    cases lookupNode g a with
    | none => rfl
    | some o => simp [Yaml.beqOpt_refl]
  simp only [hdiff, hkeysdiff, hchanged, hauth, hememp, List.filterMap_nil,
    List.foldlM_nil]
  rfl

/-- C9: the `all_nodes_used` policy never reports anything: a node that
appears in no edge has an empty reverse adjacency, hence is a root, and
roots are filtered out of the unused set, so the violation list is empty
for every graph. -/
theorem c9_all_nodes_used_vacuous (g : Graph) : checkAllNodesUsed g = [] := by
  unfold checkAllNodesUsed
  have hsub : ∀ n ∈ g.keys, n ∉ g.edges.foldl
      (fun acc e => addToSet (addToSet acc e.fromNode) e.toNode) [] →
      n ∈ g.findRoots := by
    intro n hn hnot
    have hnoedge : ∀ e ∈ g.edges, ¬(e.toNode = n) := by
      intro e he heq
      exact hnot ((mem_usedFold g.edges [] n).mpr
        (Or.inr ⟨e, he, Or.inr heq.symm⟩))
    have hrev : g.revL n = [] := by
      unfold Graph.revL
      rw [List.filter_eq_nil_iff.mpr, List.map_nil]
      intro e he
      simpa using hnoedge e he
    unfold Graph.findRoots
    refine List.mem_filter.mpr ⟨hn, ?_⟩
    simp [hrev]
  simp only []
  rw [List.filter_eq_nil_iff.mpr, List.map_nil]
  intro n hn
  have hn' := List.mem_filter.mp hn
  have hroot := hsub n hn'.1 (by simpa using hn'.2)
  simp [hroot]

/-! ## C6 and the C4 counterexample (concrete computations) -/

/-- C6: diffing the chain `A → B → C` against the same entities with edge
`A → B` removed marks `B` and `C` as affected but not `A`. -/
theorem c6_removed_edge_impact :
    ∃ d, compareGraphs oldChainGraph newChainGraph = .ok d ∧
      "B" ∈ d.affectedNodes ∧ "C" ∈ d.affectedNodes ∧ "A" ∉ d.affectedNodes :=
  ⟨_, rfl, by decide, by decide, by decide⟩

/-- C4 counterexample: on the two-node cycle `A ⇄ B`, both
`get_transitive_dependents("A")` and `get_transitive_dependencies("A")`
contain `A` itself — the claimed unconditional self-exclusion fails on
graphs with a cycle through the queried node. -/
theorem c4_counterexample_cycle_contains_self :
    (∃ s, Graph.getTransitiveDependents cycleGraph "A" = .ok s ∧ "A" ∈ s) ∧
    "A" ∈ Graph.getTransitiveDependencies cycleGraph "A" :=
  ⟨⟨_, rfl, by decide⟩, by decide⟩

/-! ## Adjacency characterizations -/

theorem mem_adjL {g : Graph} {u v : String} :
    v ∈ g.adjL u ↔ ∃ e ∈ g.edges, e.fromNode = u ∧ e.toNode = v := by
  simp only [Graph.adjL, List.mem_map, List.mem_filter, decide_eq_true_eq]
  constructor
  · rintro ⟨e, ⟨he, hfu⟩, rfl⟩; exact ⟨e, he, hfu, rfl⟩
  · rintro ⟨e, he, hfu, rfl⟩; exact ⟨e, ⟨he, hfu⟩, rfl⟩

theorem mem_revL {g : Graph} {u v : String} :
    u ∈ g.revL v ↔ ∃ e ∈ g.edges, e.fromNode = u ∧ e.toNode = v := by
  simp only [Graph.revL, List.mem_map, List.mem_filter, decide_eq_true_eq]
  constructor
  · rintro ⟨e, ⟨he, htv⟩, rfl⟩; exact ⟨e, he, rfl, htv⟩
  · rintro ⟨e, he, rfl, htv⟩; exact ⟨e, ⟨he, htv⟩, rfl⟩

theorem mem_revL_iff_mem_adjL {g : Graph} {u v : String} :
    u ∈ g.revL v ↔ v ∈ g.adjL u := by
  rw [mem_revL, mem_adjL]

theorem adjL_subset_keys {g : Graph} (hWF : g.WF) {u v : String}
    (h : v ∈ g.adjL u) : v ∈ g.keys := by
  obtain ⟨e, he, -, rfl⟩ := mem_adjL.mp h
  exact (hWF.2 e he).2

theorem revL_subset_keys {g : Graph} (hWF : g.WF) {u v : String}
    (h : u ∈ g.revL v) : u ∈ g.keys := by
  obtain ⟨e, he, rfl, -⟩ := mem_revL.mp h
  exact (hWF.2 e he).1

/-! ## TopoOk and reachability lemmas -/

theorem topoOk_closed {g : Graph} {L : List String} (h : TopoOk g L) :
    ∀ u ∈ L, ∀ v ∈ g.adjL u, v ∈ L := by
  induction h with
  | nil => intro u hu; exact absurd hu (List.not_mem_nil u)
  | snoc L u _ hadj ih =>
    intro w hw v hv
    rcases List.mem_append.mp hw with hw | hw
    · exact List.mem_append_left _ (ih w hw v hv)
    · have : w = u := List.mem_singleton.mp hw
      subst this
      exact List.mem_append_left _ (hadj v hv)

theorem topoOk_indexOf_lt {g : Graph} {L : List String} (h : TopoOk g L)
    (hnd : L.Nodup) :
    ∀ u ∈ L, ∀ v ∈ g.adjL u, L.indexOf v < L.indexOf u := by
  induction h with
  | nil => intro u hu; exact absurd hu (List.not_mem_nil u)
  | snoc L u hL hadj ih =>
    have hnd' : L.Nodup ∧ u ∉ L := by
      rw [List.nodup_append] at hnd
      refine ⟨hnd.1, fun hu => ?_⟩
      exact hnd.2.2 hu (List.mem_singleton.mpr rfl)
    intro w hw v hv
    rcases List.mem_append.mp hw with hw | hw
    · have hvL := topoOk_closed hL w hw v hv
      rw [List.indexOf_append_of_mem hvL, List.indexOf_append_of_mem hw]
      exact ih hnd'.1 w hw v hv
    · have : w = u := List.mem_singleton.mp hw
      subst this
      have hvL := hadj v hv
      rw [List.indexOf_append_of_mem hvL,
        List.indexOf_append_of_not_mem hnd'.2]
      calc L.indexOf v < L.length := List.indexOf_lt_length.mpr hvL
        _ ≤ L.length + List.indexOf w [w] := Nat.le_add_right _ _

theorem ReachP.head {g : Graph} {u v w : String} (huv : v ∈ g.adjL u)
    (hr : ReachP g v w) : ReachP g u w := by
  induction hr with
  | single h => exact .tail (.single huv) h
  | tail _ h ih => exact .tail ih h

theorem reachP_indexOf_lt {g : Graph} {L : List String} (hL : TopoOk g L)
    (hnd : L.Nodup) {u v : String} (hr : ReachP g u v) (hu : u ∈ L) :
    v ∈ L ∧ L.indexOf v < L.indexOf u := by
  induction hr with
  | single h =>
    exact ⟨topoOk_closed hL _ hu _ h, topoOk_indexOf_lt hL hnd _ hu _ h⟩
  | tail _ h ih =>
    obtain ⟨hvL, hlt⟩ := ih
    exact ⟨topoOk_closed hL _ hvL _ h,
      lt_trans (topoOk_indexOf_lt hL hnd _ hvL _ h) hlt⟩

theorem reachP_irrefl_of_topoOk {g : Graph} {L : List String}
    (hL : TopoOk g L) (hnd : L.Nodup) {x : String} (hx : x ∈ L)
    (hr : ReachP g x x) : False :=
  lt_irrefl _ (reachP_indexOf_lt hL hnd hr hx).2

/-! ## Fuel-measure lemmas -/

theorem unvisitedCount_cons {g : Graph} {node : String} {V : List String}
    (hk : node ∈ g.keys) (hnv : node ∉ V) :
    unvisitedCount g (node :: V) + 1 = unvisitedCount g V := by
  unfold unvisitedCount
  rw [List.toFinset_cons, Finset.sdiff_insert, Finset.card_erase_of_mem
    (Finset.mem_sdiff.mpr ⟨List.mem_toFinset.mpr hk, by simpa using hnv⟩)]
  exact Nat.sub_add_cancel (Finset.card_pos.mpr
    ⟨node, Finset.mem_sdiff.mpr ⟨List.mem_toFinset.mpr hk, by simpa using hnv⟩⟩)

theorem unvisitedCount_le_of_subset {g : Graph} {V V' : List String}
    (h : ∀ x ∈ V, x ∈ V') : unvisitedCount g V' ≤ unvisitedCount g V :=
  Finset.card_le_card (Finset.sdiff_subset_sdiff (le_refl _)
    (fun x hx => List.mem_toFinset.mpr (h x (List.mem_toFinset.mp hx))))

theorem unvisitedCount_le_keys_length (g : Graph) (V : List String) :
    unvisitedCount g V ≤ g.keys.length :=
  le_trans (Finset.card_le_card Finset.sdiff_subset) (List.toFinset_card_le _)

/-! ## Monotonicity of the cycle-detection DFS -/

theorem cyclesDfs_mono (g : Graph) (hWF : g.WF) :
    ∀ (fuel : Nat) (path : List String) (node : String) (s : Graph.DfsState),
      node ∈ g.keys → (∀ x ∈ s.visited, x ∈ g.keys) →
      (∀ x ∈ s.visited, x ∈ (Graph.cyclesDfs g fuel path node s).visited) ∧
      (∀ x ∈ (Graph.cyclesDfs g fuel path node s).visited, x ∈ g.keys) ∧
      s.cycles <+: (Graph.cyclesDfs g fuel path node s).cycles := by
  intro fuel
  induction fuel with
  | zero =>
    intro path node s _ hVK
    exact ⟨fun x h => h, hVK, List.prefix_refl _⟩
  | succ fuel ih =>
    intro path node s hnk hVK
    by_cases hp : node ∈ path
    · simp only [Graph.cyclesDfs, if_pos hp]
      exact ⟨fun x h => h, hVK, List.prefix_append _ _⟩
    · by_cases hv : node ∈ s.visited
      · simp only [Graph.cyclesDfs, if_neg hp, if_pos hv]
        exact ⟨fun x h => h, hVK, List.prefix_refl _⟩
      · simp only [Graph.cyclesDfs, if_neg hp, if_neg hv]
        have hfold : ∀ (nbs : List String) (p' : List String) (s₁ : Graph.DfsState),
            (∀ v ∈ nbs, v ∈ g.keys) → (∀ x ∈ s₁.visited, x ∈ g.keys) →
            (∀ x ∈ s₁.visited,
              x ∈ (nbs.foldl (fun acc nb => Graph.cyclesDfs g fuel p' nb acc) s₁).visited) ∧
            (∀ x ∈ (nbs.foldl (fun acc nb => Graph.cyclesDfs g fuel p' nb acc) s₁).visited,
              x ∈ g.keys) ∧
            s₁.cycles <+:
              (nbs.foldl (fun acc nb => Graph.cyclesDfs g fuel p' nb acc) s₁).cycles := by
          intro nbs
          induction nbs with
          | nil => intro p' s₁ _ hk; exact ⟨fun x h => h, hk, List.prefix_refl _⟩
          | cons v vs ihn =>
            intro p' s₁ hnbs hk
            have h₁ := ih p' v s₁ (hnbs v (List.mem_cons_self _ _)) hk
            have h₂ := ihn p' (Graph.cyclesDfs g fuel p' v s₁)
              (fun w hw => hnbs w (List.mem_cons_of_mem _ hw)) h₁.2.1
            exact ⟨fun x hx => h₂.1 x (h₁.1 x hx), h₂.2.1,
              List.IsPrefix.trans h₁.2.2 h₂.2.2⟩
        have hadjk : ∀ v ∈ g.adjL node, v ∈ g.keys :=
          fun v hv => adjL_subset_keys hWF hv
        have hk₁ : ∀ x ∈ (node :: s.visited), x ∈ g.keys := by
          intro x hx
          rcases List.mem_cons.mp hx with rfl | hx
          · exact hnk
          · exact hVK x hx
        have h := hfold (g.adjL node) (path ++ [node]) ⟨node :: s.visited, s.cycles⟩
          hadjk hk₁
        exact ⟨fun x hx => h.1 x (List.mem_cons_of_mem _ hx), h.2.1, h.2.2⟩

theorem cyclesFold_mono (g : Graph) (hWF : g.WF) (fuel : Nat) :
    ∀ (nbs : List String) (p' : List String) (s : Graph.DfsState),
      (∀ v ∈ nbs, v ∈ g.keys) → (∀ x ∈ s.visited, x ∈ g.keys) →
      (∀ x ∈ s.visited,
        x ∈ (nbs.foldl (fun acc nb => Graph.cyclesDfs g fuel p' nb acc) s).visited) ∧
      (∀ x ∈ (nbs.foldl (fun acc nb => Graph.cyclesDfs g fuel p' nb acc) s).visited,
        x ∈ g.keys) ∧
      s.cycles <+:
        (nbs.foldl (fun acc nb => Graph.cyclesDfs g fuel p' nb acc) s).cycles := by
  intro nbs
  induction nbs with
  | nil => intro p' s _ hk; exact ⟨fun x h => h, hk, List.prefix_refl _⟩
  | cons v vs ihn =>
    intro p' s hnbs hk
    have h₁ := cyclesDfs_mono g hWF fuel p' v s (hnbs v (List.mem_cons_self _ _)) hk
    have h₂ := ihn p' (Graph.cyclesDfs g fuel p' v s)
      (fun w hw => hnbs w (List.mem_cons_of_mem _ hw)) h₁.2.1
    exact ⟨fun x hx => h₂.1 x (h₁.1 x hx), h₂.2.1,
      List.IsPrefix.trans h₁.2.2 h₂.2.2⟩

/-! ## Soundness of a clean cycle-detection DFS run -/

theorem cyclesDfs_sound (g : Graph) (hWF : g.WF) :
    ∀ (fuel : Nat) (path : List String) (node : String) (s : Graph.DfsState)
      (L : List String),
      unvisitedCount g s.visited < fuel →
      node ∈ g.keys → (∀ x ∈ s.visited, x ∈ g.keys) →
      DfsInv g L s.visited path →
      (Graph.cyclesDfs g fuel path node s).cycles = s.cycles →
      ∃ L', L <+: L' ∧
        DfsInv g L' (Graph.cyclesDfs g fuel path node s).visited path ∧
        node ∈ (Graph.cyclesDfs g fuel path node s).visited ∧
        node ∉ path ∧ node ∈ L' := by
  intro fuel
  induction fuel with
  | zero => intro path node s L hcount; exact absurd hcount (Nat.not_lt_zero _)
  | succ fuel ih =>
    intro path node s L hcount hnk hVK hInv heq
    by_cases hp : node ∈ path
    · exfalso
      simp only [Graph.cyclesDfs, if_pos hp] at heq
      have := congrArg List.length heq
      simp at this
    · by_cases hv : node ∈ s.visited
      · simp only [Graph.cyclesDfs, if_neg hp, if_pos hv]
        exact ⟨L, List.prefix_refl _, hInv, hv, hp,
          (hInv.2.1 node).mpr ⟨hv, hp⟩⟩
      · simp only [Graph.cyclesDfs, if_neg hp, if_neg hv] at heq ⊢
        set p' := path ++ [node] with hp'
        set s₁ : Graph.DfsState := ⟨node :: s.visited, s.cycles⟩ with hs₁
        have hInv₁ : DfsInv g L s₁.visited p' := by
          refine ⟨hInv.1, fun x => ?_, hInv.2.2⟩
          rw [hInv.2.1 x]
          constructor
          · rintro ⟨hxV, hxp⟩
            have hxn : x ≠ node := fun hxe => hv (hxe ▸ hxV)
            refine ⟨List.mem_cons_of_mem _ hxV, fun hc => ?_⟩
            rcases List.mem_append.mp hc with hc | hc
            · exact hxp hc
            · exact hxn (List.mem_singleton.mp hc)
          · rintro ⟨hxV, hxp⟩
            have hxn : x ≠ node := fun hxe => hxp (hxe ▸
              List.mem_append_right _ (List.mem_singleton.mpr rfl))
            refine ⟨?_, fun hc => hxp (List.mem_append_left _ hc)⟩
            rcases List.mem_cons.mp hxV with hc | hc
            · exact absurd hc hxn
            · exact hc
        have hk₁ : ∀ x ∈ s₁.visited, x ∈ g.keys := by
          intro x hx
          rcases List.mem_cons.mp hx with rfl | hx
          · exact hnk
          · exact hVK x hx
        have hcount₁ : unvisitedCount g s₁.visited < fuel := by
          show unvisitedCount g (node :: s.visited) < fuel
          have hc := unvisitedCount_cons (g := g) hnk hv
          omega
        -- fold soundness over the neighbour list
        have hfoldS : ∀ (nbs : List String), (∀ v ∈ nbs, v ∈ g.keys) →
            ∀ (t : Graph.DfsState) (L₀ : List String),
              unvisitedCount g t.visited < fuel →
              (∀ x ∈ t.visited, x ∈ g.keys) →
              DfsInv g L₀ t.visited p' →
              (nbs.foldl (fun acc nb => Graph.cyclesDfs g fuel p' nb acc) t).cycles
                = t.cycles →
              ∃ L', L₀ <+: L' ∧
                DfsInv g L'
                  (nbs.foldl (fun acc nb => Graph.cyclesDfs g fuel p' nb acc) t).visited
                  p' ∧
                (∀ x ∈ t.visited,
                  x ∈ (nbs.foldl (fun acc nb => Graph.cyclesDfs g fuel p' nb acc) t).visited) ∧
                ∀ v ∈ nbs,
                  v ∈ (nbs.foldl (fun acc nb => Graph.cyclesDfs g fuel p' nb acc) t).visited ∧
                    v ∉ p' ∧ v ∈ L' := by
          intro nbs
          induction nbs with
          | nil =>
            intro _ t L₀ _ _ hInv₀ _
            exact ⟨L₀, List.prefix_refl _, hInv₀, fun x h => h,
              fun v hv => absurd hv (List.not_mem_nil v)⟩
          | cons v vs ihn =>
            intro hnbs t L₀ hcnt hkt hInv₀ heq₀
            have hvk : v ∈ g.keys := hnbs v (List.mem_cons_self _ _)
            have hmono₁ := cyclesDfs_mono g hWF fuel p' v t hvk hkt
            have hmono₂ := cyclesFold_mono g hWF fuel vs p'
              (Graph.cyclesDfs g fuel p' v t)
              (fun w hw => hnbs w (List.mem_cons_of_mem _ hw)) hmono₁.2.1
            have heqfold : (vs.foldl (fun acc nb => Graph.cyclesDfs g fuel p' nb acc)
                (Graph.cyclesDfs g fuel p' v t)).cycles = t.cycles := by
              simpa using heq₀
            have heq₁ : (Graph.cyclesDfs g fuel p' v t).cycles = t.cycles := by
              have hlen₁ := hmono₁.2.2.length_le
              have hlen₂ := hmono₂.2.2.length_le
              have hlen₃ := congrArg List.length heqfold
              exact (hmono₁.2.2.eq_of_length (by omega)).symm
            obtain ⟨L₁, hpre₁, hInv₁', hvmem, hvp, hvL₁⟩ :=
              ih p' v t L₀ hcnt hvk hkt hInv₀ heq₁
            have hcnt₁ : unvisitedCount g (Graph.cyclesDfs g fuel p' v t).visited < fuel :=
              lt_of_le_of_lt (unvisitedCount_le_of_subset hmono₁.1) hcnt
            obtain ⟨L', hpre₂, hInv₂', hmono₃, hrest⟩ :=
              ihn (fun w hw => hnbs w (List.mem_cons_of_mem _ hw))
                (Graph.cyclesDfs g fuel p' v t) L₁
                hcnt₁ hmono₁.2.1 hInv₁' (heqfold.trans heq₁.symm)
            refine ⟨L', hpre₁.trans hpre₂, by simpa using hInv₂',
              fun x hx => by simpa using hmono₃ x (hmono₁.1 x hx), ?_⟩
            intro w hw
            rcases List.mem_cons.mp hw with rfl | hw
            · exact ⟨by simpa using hmono₃ w hvmem, hvp, hpre₂.subset hvL₁⟩
            · simpa using hrest w hw
        have hadjk : ∀ v ∈ g.adjL node, v ∈ g.keys :=
          fun v hv => adjL_subset_keys hWF hv
        obtain ⟨L'', hpre, hInv'', hmono, hnbprops⟩ :=
          hfoldS (g.adjL node) hadjk s₁ L hcount₁ hk₁ hInv₁ heq
        have hnodeV : node ∈
            ((g.adjL node).foldl (fun acc nb => Graph.cyclesDfs g fuel p' nb acc) s₁).visited :=
          hmono node (List.mem_cons_self _ _)
        have hnodeL'' : node ∉ L'' := by
          intro hc
          exact ((hInv''.2.1 node).mp hc).2
            (List.mem_append_right _ (List.mem_singleton.mpr rfl))
        refine ⟨L'' ++ [node], hpre.trans (List.prefix_append _ _), ?_, hnodeV, hp,
          List.mem_append_right _ (List.mem_singleton.mpr rfl)⟩
        refine ⟨?_, ?_, ?_⟩
        · rw [List.nodup_append]
          exact ⟨hInv''.1, List.nodup_singleton _,
            fun a ha hb => hnodeL'' ((List.mem_singleton.mp hb) ▸ ha)⟩
        · intro x
          constructor
          · intro hx
            rcases List.mem_append.mp hx with hx | hx
            · obtain ⟨hxV, hxp⟩ := (hInv''.2.1 x).mp hx
              exact ⟨hxV, fun hc => hxp (List.mem_append_left _ hc)⟩
            · have : x = node := List.mem_singleton.mp hx
              subst this
              exact ⟨hnodeV, hp⟩
          · rintro ⟨hxV, hxp⟩
            by_cases hxn : x = node
            · exact List.mem_append_right _ (List.mem_singleton.mpr hxn)
            · refine List.mem_append_left _ ((hInv''.2.1 x).mpr ⟨hxV, fun hc => ?_⟩)
              rcases List.mem_append.mp hc with hc | hc
              · exact hxp hc
              · exact hxn (List.mem_singleton.mp hc)
        · exact TopoOk.snoc L'' node hInv''.2.2
            (fun v hv => (hnbprops v hv).2.2)

/-! ## The top-level `find_cycles` loop -/

theorem findCyclesFold_mono (g : Graph) (hWF : g.WF) :
    ∀ (names : List String) (s : Graph.DfsState),
      (∀ n ∈ names, n ∈ g.keys) → (∀ x ∈ s.visited, x ∈ g.keys) →
      (∀ x ∈ s.visited,
        x ∈ (names.foldl (fun s name => if name ∈ s.visited then s
          else Graph.cyclesDfs g (g.keys.length + 1) [] name s) s).visited) ∧
      (∀ x ∈ (names.foldl (fun s name => if name ∈ s.visited then s
          else Graph.cyclesDfs g (g.keys.length + 1) [] name s) s).visited,
        x ∈ g.keys) ∧
      s.cycles <+: (names.foldl (fun s name => if name ∈ s.visited then s
          else Graph.cyclesDfs g (g.keys.length + 1) [] name s) s).cycles := by
  intro names
  induction names with
  | nil => intro s _ hk; exact ⟨fun x h => h, hk, List.prefix_refl _⟩
  | cons n ns ihn =>
    intro s hnames hk
    simp only [List.foldl_cons]
    by_cases hn : n ∈ s.visited
    · rw [if_pos hn]
      exact ihn s (fun m hm => hnames m (List.mem_cons_of_mem _ hm)) hk
    · rw [if_neg hn]
      have h₁ := cyclesDfs_mono g hWF (g.keys.length + 1) [] n s
        (hnames n (List.mem_cons_self _ _)) hk
      have h₂ := ihn (Graph.cyclesDfs g (g.keys.length + 1) [] n s)
        (fun m hm => hnames m (List.mem_cons_of_mem _ hm)) h₁.2.1
      exact ⟨fun x hx => h₂.1 x (h₁.1 x hx), h₂.2.1, h₁.2.2.trans h₂.2.2⟩

theorem findCyclesFold_sound (g : Graph) (hWF : g.WF) :
    ∀ (names : List String) (s : Graph.DfsState) (L : List String),
      (∀ n ∈ names, n ∈ g.keys) → (∀ x ∈ s.visited, x ∈ g.keys) →
      DfsInv g L s.visited [] →
      (names.foldl (fun s name => if name ∈ s.visited then s
        else Graph.cyclesDfs g (g.keys.length + 1) [] name s) s).cycles = s.cycles →
      ∃ L', L <+: L' ∧
        DfsInv g L' (names.foldl (fun s name => if name ∈ s.visited then s
          else Graph.cyclesDfs g (g.keys.length + 1) [] name s) s).visited [] ∧
        ∀ n ∈ names, n ∈ (names.foldl (fun s name => if name ∈ s.visited then s
          else Graph.cyclesDfs g (g.keys.length + 1) [] name s) s).visited := by
  intro names
  induction names with
  | nil =>
    intro s L _ _ hInv _
    exact ⟨L, List.prefix_refl _, hInv, fun n hn => absurd hn (List.not_mem_nil n)⟩
  | cons n ns ihn =>
    intro s L hnames hk hInv heq
    simp only [List.foldl_cons] at heq ⊢
    by_cases hn : n ∈ s.visited
    · rw [if_pos hn] at heq ⊢
      obtain ⟨L', hpre, hInv', hall⟩ :=
        ihn s L (fun m hm => hnames m (List.mem_cons_of_mem _ hm)) hk hInv heq
      have hmono := findCyclesFold_mono g hWF ns s
        (fun m hm => hnames m (List.mem_cons_of_mem _ hm)) hk
      refine ⟨L', hpre, hInv', ?_⟩
      intro m hm
      rcases List.mem_cons.mp hm with rfl | hm
      · exact hmono.1 m hn
      · exact hall m hm
    · rw [if_neg hn] at heq ⊢
      have hnk : n ∈ g.keys := hnames n (List.mem_cons_self _ _)
      have hmono₁ := cyclesDfs_mono g hWF (g.keys.length + 1) [] n s hnk hk
      have hmono₂ := findCyclesFold_mono g hWF ns
        (Graph.cyclesDfs g (g.keys.length + 1) [] n s)
        (fun m hm => hnames m (List.mem_cons_of_mem _ hm)) hmono₁.2.1
      have heq₁ : (Graph.cyclesDfs g (g.keys.length + 1) [] n s).cycles = s.cycles := by
        have hlen₁ := hmono₁.2.2.length_le
        have hlen₂ := hmono₂.2.2.length_le
        have hlen₃ := congrArg List.length heq
        exact (hmono₁.2.2.eq_of_length (by omega)).symm
      have hcount : unvisitedCount g s.visited < g.keys.length + 1 :=
        lt_of_le_of_lt (unvisitedCount_le_keys_length g s.visited)
          (Nat.lt_succ_self _)
      obtain ⟨L₁, hpre₁, hInv₁, hnvis, -, -⟩ :=
        cyclesDfs_sound g hWF (g.keys.length + 1) [] n s L hcount hnk hk hInv heq₁
      obtain ⟨L', hpre₂, hInv', hall⟩ :=
        ihn (Graph.cyclesDfs g (g.keys.length + 1) [] n s) L₁
          (fun m hm => hnames m (List.mem_cons_of_mem _ hm)) hmono₁.2.1 hInv₁
          (heq.trans heq₁.symm)
      refine ⟨L', hpre₁.trans hpre₂, hInv', ?_⟩
      intro m hm
      rcases List.mem_cons.mp hm with rfl | hm
      · exact hmono₂.1 m hnvis
      · exact hall m hm

/-- Master soundness theorem of the cycle detector: when `find_cycles`
reports no cycle on a well-formed graph, the node set admits a `TopoOk`
arrangement (its reverse is a topological order of the whole graph). -/
theorem findCycles_nil_topoOk (g : Graph) (hWF : g.WF)
    (h : g.findCycles = []) :
    ∃ L, TopoOk g L ∧ L.Nodup ∧ ∀ x, x ∈ L ↔ x ∈ g.keys := by
  unfold Graph.findCycles at h
  have hInv₀ : DfsInv g [] ([] : List String) [] := by
    refine ⟨List.nodup_nil, fun x => ?_, TopoOk.nil⟩
    simp
  obtain ⟨L', -, hInv', hall⟩ :=
    findCyclesFold_sound g hWF g.keys ⟨[], []⟩ [] (fun n hn => hn)
      (fun x hx => absurd hx (List.not_mem_nil x)) hInv₀ h
  have hmono := findCyclesFold_mono g hWF g.keys ⟨[], []⟩ (fun n hn => hn)
    (fun x hx => absurd hx (List.not_mem_nil x))
  refine ⟨L', hInv'.2.2, hInv'.1, fun x => ?_⟩
  constructor
  · intro hx
    exact hmono.2.1 x ((hInv'.2.1 x).mp hx).1
  · intro hx
    exact (hInv'.2.1 x).mpr ⟨hall x hx, List.not_mem_nil x⟩

/-! ## Reach soundness of the transitive-closure traversals -/

theorem depsDfs_reach (g : Graph) (x₀ : String) :
    ∀ (fuel : Nat) (node : String) (s : Graph.ReachState),
      (∀ y ∈ s.result, ReachP g y x₀) →
      (node = x₀ ∨ ReachP g node x₀) →
      ∀ y ∈ (Graph.depsDfs g fuel node s).result, ReachP g y x₀ := by
  intro fuel
  induction fuel with
  | zero => intro node s hres _; exact hres
  | succ fuel ih =>
    intro node s hres hnode
    by_cases hv : node ∈ s.visited
    · simpa only [Graph.depsDfs, if_pos hv] using hres
    · simp only [Graph.depsDfs, if_neg hv]
      have hfold : ∀ (nbs : List String) (t : Graph.ReachState),
          (∀ v ∈ nbs, v ∈ g.revL node) →
          (∀ y ∈ t.result, ReachP g y x₀) →
          ∀ y ∈ (nbs.foldl (fun acc dep =>
              Graph.depsDfs g fuel dep
                { acc with result := addToSet acc.result dep }) t).result,
            ReachP g y x₀ := by
        intro nbs
        induction nbs with
        | nil => intro t _ hres'; simpa using hres'
        | cons v vs ihn =>
          intro t hnbs hres'
          simp only [List.foldl_cons]
          have hvrev : v ∈ g.revL node := hnbs v (List.mem_cons_self _ _)
          have hvreach : ReachP g v x₀ := by
            have hadj : node ∈ g.adjL v := mem_revL_iff_mem_adjL.mp hvrev
            rcases hnode with rfl | hr
            · exact ReachP.single hadj
            · exact ReachP.head hadj hr
          have hres₁ : ∀ y ∈ (addToSet t.result v), ReachP g y x₀ := by
            intro y hy
            rcases mem_addToSet.mp hy with hy | rfl
            · exact hres' y hy
            · exact hvreach
          exact ihn _ (fun w hw => hnbs w (List.mem_cons_of_mem _ hw))
            (ih v { t with result := addToSet t.result v } hres₁ (Or.inr hvreach))
      exact hfold (g.revL node) _ (fun v hv => hv) hres

theorem dependentsDfs_reach (g : Graph) (x₀ : String) :
    ∀ (gas : Nat) (node : String) (s t : Graph.ReachState),
      (∀ y ∈ s.result, ReachP g x₀ y) →
      (node = x₀ ∨ ReachP g x₀ node) →
      Graph.dependentsDfs g gas node s = .ok t →
      ∀ y ∈ t.result, ReachP g x₀ y := by
  intro gas
  induction gas with
  | zero => intro node s t _ _ hok; exact absurd hok (by simp [Graph.dependentsDfs])
  | succ gas ih =>
    intro node s t hres hnode hok
    by_cases hv : node ∈ s.visited
    · simp only [Graph.dependentsDfs, if_pos hv] at hok
      cases hok
      exact hres
    · simp only [Graph.dependentsDfs, if_neg hv] at hok
      have hfold : ∀ (nbs : List String) (u : Graph.ReachState),
          (∀ v ∈ nbs, v ∈ g.adjL node) →
          (∀ y ∈ u.result, ReachP g x₀ y) →
          (nbs.foldlM (fun acc dep =>
            Graph.dependentsDfs g gas dep
              { acc with result := addToSet acc.result dep }) u) = .ok t →
          ∀ y ∈ t.result, ReachP g x₀ y := by
        intro nbs
        induction nbs with
        | nil =>
          intro u _ hres' hok'
          simp only [List.foldlM_nil] at hok'
          cases hok'
          exact hres'
        | cons v vs ihn =>
          intro u hnbs hres' hok'
          simp only [List.foldlM_cons] at hok'
          have hvadj : v ∈ g.adjL node := hnbs v (List.mem_cons_self _ _)
          have hvreach : ReachP g x₀ v := by
            rcases hnode with rfl | hr
            · exact ReachP.single hvadj
            · exact ReachP.tail hr hvadj
          have hres₁ : ∀ y ∈ (addToSet u.result v), ReachP g x₀ y := by
            intro y hy
            rcases mem_addToSet.mp hy with hy | rfl
            · exact hres' y hy
            · exact hvreach
          cases hstep : Graph.dependentsDfs g gas v
              { u with result := addToSet u.result v } with
          | error e =>
            rw [hstep] at hok'
            exact absurd hok' (by simp [Bind.bind, Except.bind])
          | ok u₁ =>
            rw [hstep] at hok'
            simp only [Bind.bind, Except.bind] at hok'
            exact ihn u₁ (fun w hw => hnbs w (List.mem_cons_of_mem _ hw))
              (ih v _ u₁ hres₁ (Or.inr hvreach) hstep) hok'
      exact hfold (g.adjL node) { s with visited := node :: s.visited }
        (fun v hv => hv) hres hok

/-! ## C4 (amended) -/

/-- C4 (amended): on every well-formed graph reported cycle-free by
`find_cycles`, the transitive-dependent and transitive-dependency queries
both exclude the queried entity from their result (on graphs with a cycle
through `x`, `x` can appear in its own closure — see the counterexample). -/
theorem c4_self_excluded_on_acyclic (g : Graph) (hWF : g.WF)
    (hac : g.findCycles = []) (x : String) (hx : x ∈ g.keys) :
    (∀ s, g.getTransitiveDependents x = .ok s → x ∉ s) ∧
    x ∉ g.getTransitiveDependencies x := by
  obtain ⟨L, hTopo, hnd, hiff⟩ := findCycles_nil_topoOk g hWF hac
  have hxL : x ∈ L := (hiff x).mpr hx
  constructor
  · intro s hs hmem
    rw [Graph.getTransitiveDependents, if_neg (not_not_intro hx)] at hs
    cases hrun : Graph.dependentsDfs g (Graph.maxDepth + 1) x ⟨[], []⟩ with
    | error e => rw [hrun] at hs; exact absurd hs (by simp [Bind.bind, Except.bind])
    | ok t =>
      rw [hrun] at hs
      simp only [Bind.bind, Except.bind] at hs
      cases hs
      have := dependentsDfs_reach g x (Graph.maxDepth + 1) x ⟨[], []⟩ t
        (fun y hy => absurd hy (List.not_mem_nil y)) (Or.inl rfl) hrun x hmem
      exact reachP_irrefl_of_topoOk hTopo hnd hxL this
  · intro hmem
    have := depsDfs_reach g x (g.keys.length + 2) x ⟨[], []⟩
      (fun y hy => absurd hy (List.not_mem_nil y)) (Or.inl rfl) x hmem
    exact reachP_irrefl_of_topoOk hTopo hnd hxL this

/-! ## Counting lemmas for Kahn's algorithm -/

theorem length_filter_add_length_filter_le {α : Type} (p q : α → Bool) :
    ∀ l : List α, (∀ a ∈ l, ¬(p a = true ∧ q a = true)) →
      (l.filter p).length + (l.filter q).length ≤ l.length := by
  intro l
  induction l with
  | nil => intro; simp
  | cons a rest ih =>
    intro h
    have hrest := ih (fun b hb => h b (List.mem_cons_of_mem _ hb))
    have ha := h a (List.mem_cons_self _ _)
    by_cases hp : p a = true
    · have hq : ¬ q a = true := fun hq => ha ⟨hp, hq⟩
      simp only [List.filter_cons, if_pos hp, if_neg hq]
      simp only [List.length_cons]
      omega
    · simp only [List.filter_cons, if_neg hp]
      by_cases hq : q a = true
      · simp only [if_pos hq, List.length_cons]
        omega
      · simp only [if_neg hq, List.length_cons]
        omega

theorem length_filter_or_disjoint {α : Type} (p q : α → Bool) :
    ∀ l : List α, (∀ a ∈ l, ¬(p a = true ∧ q a = true)) →
      (l.filter (fun a => p a || q a)).length =
        (l.filter p).length + (l.filter q).length := by
  intro l
  induction l with
  | nil => intro; simp
  | cons a rest ih =>
    intro h
    have hrest := ih (fun b hb => h b (List.mem_cons_of_mem _ hb))
    have ha := h a (List.mem_cons_self _ _)
    by_cases hp : p a = true
    · have hq : ¬ q a = true := fun hq => ha ⟨hp, hq⟩
      have hor : (p a || q a) = true := by simp [hp]
      rw [List.filter_cons, List.filter_cons, List.filter_cons, if_pos hp,
        if_neg hq, if_pos hor, List.length_cons, List.length_cons]
      omega
    · by_cases hq : q a = true
      · have hor : (p a || q a) = true := by simp [hq]
        rw [List.filter_cons, List.filter_cons, List.filter_cons, if_neg hp,
          if_pos hq, if_pos hor, List.length_cons, List.length_cons]
        omega
      · have hor : ¬((p a || q a) = true) := by simp [hp, hq]
        rw [List.filter_cons, List.filter_cons, List.filter_cons, if_neg hp,
          if_neg hq, if_neg hor]
        exact hrest

theorem count_adjL (g : Graph) (n x : String) :
    (g.adjL n).count x =
      ((g.edges.filter (fun e => e.toNode = x)).filter
        (fun e => e.fromNode = n)).length := by
  unfold Graph.adjL
  rw [List.count_eq_countP, List.countP_map, List.countP_filter,
    List.filter_filter, ← List.countP_eq_length_filter]
  apply List.countP_congr
  intro e _
  by_cases h1 : e.toNode = x <;> by_cases h2 : e.fromNode = n <;>
    simp [h1, h2, Function.comp]

theorem inCnt_le_degInit (g : Graph) (res : List String) (x : String) :
    inCnt g res x ≤ degInit g x :=
  List.length_filter_le _ _

theorem inCnt_nil (g : Graph) (x : String) : inCnt g [] x = 0 := by
  unfold inCnt
  rw [List.length_eq_zero, List.filter_eq_nil_iff]
  intro e _
  simp

theorem inCnt_eq_degInit_iff (g : Graph) (res : List String) (x : String) :
    inCnt g res x = degInit g x ↔
      ∀ e ∈ g.edges, e.toNode = x → e.fromNode ∈ res := by
  unfold inCnt degInit
  rw [List.filter_length_eq_length]
  constructor
  · intro h e he hex
    have := h e (List.mem_filter.mpr ⟨he, by simp [hex]⟩)
    simpa using this
  · intro h e he
    obtain ⟨he', hex⟩ := List.mem_filter.mp he
    simpa using h e he' (by simpa using hex)

theorem inCnt_lt_exists (g : Graph) (res : List String) (x : String)
    (h : inCnt g res x < degInit g x) :
    ∃ e ∈ g.edges, e.toNode = x ∧ e.fromNode ∉ res := by
  by_contra hc
  push_neg at hc
  exact absurd ((inCnt_eq_degInit_iff g res x).mpr
    (fun e he hex => hc e he hex)) (Nat.ne_of_lt h)

theorem degInit_pos_of_unplaced_edge (g : Graph) (res : List String)
    {e : Edge} (he : e ∈ g.edges) {x : String} (hex : e.toNode = x)
    (hfrom : e.fromNode ∉ res) : inCnt g res x < degInit g x := by
  unfold inCnt degInit
  have hmem : e ∈ g.edges.filter (fun e => e.toNode = x) :=
    List.mem_filter.mpr ⟨he, by simp [hex]⟩
  rcases Nat.lt_or_ge ((List.filter (fun e => e.fromNode ∈ res)
      (List.filter (fun e => e.toNode = x) g.edges)).length)
      ((List.filter (fun e => e.toNode = x) g.edges).length) with h | h
  · exact h
  · exfalso
    have heq : (List.filter (fun e => e.fromNode ∈ res)
        (List.filter (fun e => e.toNode = x) g.edges)).length =
          (List.filter (fun e => e.toNode = x) g.edges).length :=
      le_antisymm (List.length_filter_le _ _) h
    rw [List.filter_length_eq_length] at heq
    exact hfrom (by simpa using heq e hmem)

theorem inCnt_append_singleton (g : Graph) (res : List String) (n x : String)
    (hn : n ∉ res) :
    inCnt g (res ++ [n]) x = inCnt g res x + (g.adjL n).count x := by
  rw [count_adjL]
  unfold inCnt
  have hor : ∀ e : Edge, (decide (e.fromNode ∈ res ++ [n]) : Bool) =
      (decide (e.fromNode ∈ res) || decide (e.fromNode = n)) := by
    intro e
    by_cases h₁ : e.fromNode ∈ res
    · simp [h₁, List.mem_append]
    · by_cases h₂ : e.fromNode = n
      · simp [h₁, h₂, List.mem_append]
      · simp [h₁, h₂, List.mem_append]
  rw [List.filter_congr (fun e _ => hor e)]
  exact length_filter_or_disjoint _ _ _
    (fun e _ hpq => hn (by
      obtain ⟨h₁, h₂⟩ := hpq
      simp only [decide_eq_true_eq] at h₁ h₂
      exact h₂ ▸ h₁))

theorem nodup_subset_length_le {l m : List String} (hl : l.Nodup)
    (hm : m.Nodup) (hsub : ∀ x ∈ l, x ∈ m) : l.length ≤ m.length := by
  rw [← List.toFinset_card_of_nodup hl, ← List.toFinset_card_of_nodup hm]
  exact Finset.card_le_card
    (fun x hx => List.mem_toFinset.mpr (hsub x (List.mem_toFinset.mp hx)))

/-- The no-sink-set lemma: in a `TopoOk` arrangement there is no nonempty
set of nodes each of which has an in-neighbour inside the set — which is
exactly the shape of the unplaced remainder when Kahn's loop stalls. -/
theorem topoOk_no_sink (g : Graph) {L : List String} (h : TopoOk g L)
    (hnd : L.Nodup) :
    ∀ S : List String, S ≠ [] → (∀ x ∈ S, x ∈ L) →
      (∀ v ∈ S, ∃ u ∈ S, v ∈ g.adjL u) → False := by
  induction h with
  | nil =>
    intro S hne hSL _
    cases S with
    | nil => exact hne rfl
    | cons a _ => exact absurd (hSL a (List.mem_cons_self _ _)) (List.not_mem_nil a)
  | snoc L u hL hadj ih =>
    intro S hne hSL hpred
    have hnd' : L.Nodup ∧ u ∉ L := by
      rw [List.nodup_append] at hnd
      refine ⟨hnd.1, fun hu => ?_⟩
      exact hnd.2.2 hu (List.mem_singleton.mpr rfl)
    have huS : u ∉ S := by
      intro huS
      obtain ⟨w, hwS, hw⟩ := hpred u huS
      rcases List.mem_append.mp (hSL w hwS) with hwL | hwU
      · exact hnd'.2 (topoOk_closed hL w hwL u hw)
      · have : w = u := List.mem_singleton.mp hwU
        subst this
        exact hnd'.2 (hadj w hw)
    refine ih hnd'.1 S hne (fun x hx => ?_) hpred
    rcases List.mem_append.mp (hSL x hx) with hxL | hxU
    · exact hxL
    · exact absurd ((List.mem_singleton.mp hxU) ▸ hx) huS

/-- Behaviour of the dependent-decrementing inner fold of Kahn's loop:
degrees drop by the multiplicity in the processed list, and the queue
gains exactly (and exactly once) the names whose degree hit zero. -/
theorem kahnFold_spec : ∀ (ns : List String) (q₀ : List String)
    (deg₀ : String → Int),
    (∀ x, (ns.count x : Int) ≤ deg₀ x) →
    (∀ x, (ns.foldl (fun (p : List String × (String → Int)) dep =>
        let d := p.2 dep - 1
        (if d = 0 then p.1 ++ [dep] else p.1,
         fun x => if x = dep then d else p.2 x)) (q₀, deg₀)).2 x =
      deg₀ x - (ns.count x : Int)) ∧
    ∃ extra, (ns.foldl (fun (p : List String × (String → Int)) dep =>
        let d := p.2 dep - 1
        (if d = 0 then p.1 ++ [dep] else p.1,
         fun x => if x = dep then d else p.2 x)) (q₀, deg₀)).1 = q₀ ++ extra ∧
      extra.Nodup ∧
      (∀ x, x ∈ extra ↔
        ((ns.foldl (fun (p : List String × (String → Int)) dep =>
            let d := p.2 dep - 1
            (if d = 0 then p.1 ++ [dep] else p.1,
             fun x => if x = dep then d else p.2 x)) (q₀, deg₀)).2 x = 0 ∧
          x ∈ ns ∧ deg₀ x ≠ 0)) := by
  intro ns
  induction ns with
  | nil =>
    intro q₀ deg₀ _
    refine ⟨fun x => by simp, [], by simp, List.nodup_nil, fun x => ?_⟩
    simp
  | cons dep rest ih =>
    intro q₀ deg₀ hpos
    have hcnt_self : (dep :: rest).count dep = rest.count dep + 1 := by
      simp [List.count_cons]
    have hcnt_ne : ∀ x, x ≠ dep → (dep :: rest).count x = rest.count x := by
      intro x hx
      simp [List.count_cons, hx]
    set d := deg₀ dep - 1 with hd
    set q₁ := if d = 0 then q₀ ++ [dep] else q₀ with hq₁
    set deg₁ : String → Int := fun x => if x = dep then d else deg₀ x with hdeg₁
    have hpos₁ : ∀ x, (rest.count x : Int) ≤ deg₁ x := by
      intro x
      by_cases hx : x = dep
      · subst hx
        have := hpos x
        rw [hcnt_self] at this
        simp only [hdeg₁, if_pos rfl, hd]
        push_cast at this ⊢
        omega
      · have := hpos x
        rw [hcnt_ne x hx] at this
        simpa [hdeg₁, hx] using this
    obtain ⟨hdeg, extra', hq, hnd', hiff⟩ := ih q₁ deg₁ hpos₁
    have hfold : ((dep :: rest).foldl (fun (p : List String × (String → Int)) dep =>
        let d := p.2 dep - 1
        (if d = 0 then p.1 ++ [dep] else p.1,
         fun x => if x = dep then d else p.2 x)) (q₀, deg₀)) =
      (rest.foldl (fun (p : List String × (String → Int)) dep =>
        let d := p.2 dep - 1
        (if d = 0 then p.1 ++ [dep] else p.1,
         fun x => if x = dep then d else p.2 x)) (q₁, deg₁)) := by
      rw [List.foldl_cons]
    rw [hfold]
    have hdegAll : ∀ x, (rest.foldl (fun (p : List String × (String → Int)) dep =>
        let d := p.2 dep - 1
        (if d = 0 then p.1 ++ [dep] else p.1,
         fun x => if x = dep then d else p.2 x)) (q₁, deg₁)).2 x =
        deg₀ x - ((dep :: rest).count x : Int) := by
      intro x
      rw [hdeg x]
      by_cases hx : x = dep
      · subst hx
        rw [hcnt_self]
        simp only [hdeg₁, if_pos rfl, hd]
        push_cast
        ring
      · rw [hcnt_ne x hx]
        simp [hdeg₁, hx]
    refine ⟨hdegAll, (if d = 0 then [dep] else []) ++ extra', ?_, ?_, ?_⟩
    · rw [hq, hq₁]
      by_cases hzero : d = 0
      · simp [hzero]
      · simp [hzero]
    · by_cases hzero : d = 0
      · have hdep' : dep ∉ extra' := by
          intro hc
          have := ((hiff dep).mp hc).2.2
          exact this (by simp [hdeg₁, hzero])
        simp only [if_pos hzero]
        exact List.Nodup.cons hdep' hnd'
      · simpa [hzero] using hnd'
    · intro x
      rw [List.mem_append]
      constructor
      · rintro (hx | hx)
        · by_cases hzero : d = 0
          · rw [if_pos hzero] at hx
            have hxd : x = dep := List.mem_singleton.mp hx
            subst hxd
            have hone : deg₀ x = 1 := by omega
            have hrc : rest.count x = 0 := by
              have := hpos x
              rw [hcnt_self] at this
              push_cast at this
              omega
            refine ⟨?_, List.mem_cons_self _ _, by omega⟩
            rw [hdegAll x, hcnt_self, hrc, hone]
            simp
          · rw [if_neg hzero] at hx
            exact absurd hx (List.not_mem_nil x)
        · obtain ⟨hfx, hxr, hne⟩ := (hiff x).mp hx
          refine ⟨?_, List.mem_cons_of_mem _ hxr, ?_⟩
          · rw [hdegAll x]
            rw [hdeg x] at hfx
            by_cases hxd : x = dep
            · subst hxd
              rw [hcnt_self]
              simp only [hdeg₁, if_pos rfl, hd] at hfx ⊢
              push_cast at hfx ⊢
              omega
            · rw [hcnt_ne x hxd]
              simpa [hdeg₁, hxd] using hfx
          · by_cases hxd : x = dep
            · subst hxd
              intro hzero
              have hc : (rest.count x : Int) ≤ deg₁ x := hpos₁ x
              simp only [hdeg₁, if_pos rfl, hd, hzero] at hc hne
              have hcount : 0 < (x :: rest).count x :=
                List.count_pos_iff.mpr (List.mem_cons_self _ _)
              have := hpos x
              omega
            · intro hzero
              exact hne (by simp [hdeg₁, hxd, hzero])
      · rintro ⟨hfx, hxmem, hne⟩
        by_cases hxd : x = dep
        · subst hxd
          by_cases hxr : x ∈ rest
          · right
            refine (hiff x).mpr ⟨hfx, hxr, ?_⟩
            intro hzero
            simp only [hdeg₁, if_pos rfl, hd] at hzero
            have hone : deg₀ x = 1 := by omega
            rw [hdegAll x, hcnt_self, hone] at hfx
            have hrc : 0 < rest.count x := List.count_pos_iff.mpr hxr
            push_cast at hfx
            omega
          · left
            have hrc : rest.count x = 0 := List.count_eq_zero.mpr hxr
            rw [hdegAll x, hcnt_self, hrc] at hfx
            have hzero : d = 0 := by
              rw [hd]
              push_cast at hfx
              omega
            rw [if_pos hzero]
            exact List.mem_singleton.mpr rfl
        · right
          refine (hiff x).mpr ⟨hfx, ?_, ?_⟩
          · rcases List.mem_cons.mp hxmem with hc | hc
            · exact absurd hc hxd
            · exact hc
          · simpa [hdeg₁, hxd] using hne

/-- Invariant preservation and the final characterization of Kahn's
queue-draining loop. -/
theorem kahnLoop_spec (g : Graph) (hWF : g.WF) :
    ∀ (fuel : Nat) (q res : List String) (deg : String → Int),
      KahnInv g q res deg →
      res.length + fuel = g.keys.length + 1 →
      (kahnLoop g fuel q res deg).Nodup ∧
      (∀ x ∈ kahnLoop g fuel q res deg, x ∈ g.keys) ∧
      (∀ e ∈ g.edges, e.toNode ∈ kahnLoop g fuel q res deg →
        e.fromNode ∈ kahnLoop g fuel q res deg ∧
        (kahnLoop g fuel q res deg).indexOf e.fromNode <
          (kahnLoop g fuel q res deg).indexOf e.toNode) ∧
      (∀ x ∈ g.keys, x ∉ kahnLoop g fuel q res deg →
        ∃ e ∈ g.edges, e.toNode = x ∧
          e.fromNode ∉ kahnLoop g fuel q res deg) := by
  intro fuel
  induction fuel with
  | zero =>
    intro q res deg hInv hlen
    exfalso
    have hres_nd : res.Nodup := (List.nodup_append.mp hInv.1).1
    have : res.length ≤ g.keys.length :=
      nodup_subset_length_le hres_nd hWF.1
        (fun x hx => hInv.2.1 x (List.mem_append_left _ hx))
    omega
  | succ fuel ih =>
    intro q res deg hInv hlen
    obtain ⟨hnd, hkeys, hdeg, hzmem, horder, hqzero⟩ := hInv
    match q with
    | [] =>
      simp only [kahnLoop]
      have hres_nd : res.Nodup := by simpa using hnd
      refine ⟨hres_nd, fun x hx => hkeys x (by simpa using hx),
        fun e he hto => horder e he hto, ?_⟩
      intro x hxk hxres
      have hdne : deg x ≠ 0 := fun hdz => hxres (by simpa using hzmem x hxk hdz)
      have hlt : inCnt g res x < degInit g x := by
        have hle := inCnt_le_degInit g res x
        have := hdeg x
        rcases Nat.lt_or_ge (inCnt g res x) (degInit g x) with h | h
        · exact h
        · exfalso
          have heq : inCnt g res x = degInit g x := le_antisymm hle h
          rw [heq] at this
          simp at this
          exact hdne this
      exact inCnt_lt_exists g res x hlt
    | n :: q' =>
      have hn_deg : deg n = 0 := hqzero n (List.mem_cons_self _ _)
      have hnd' := List.nodup_append.mp hnd
      have hn_notres : n ∉ res :=
        fun hc => hnd'.2.2 hc (List.mem_cons_self _ _)
      have hq'_nd : q'.Nodup := (List.nodup_cons.mp hnd'.2.1).2
      have hn_notq' : n ∉ q' := (List.nodup_cons.mp hnd'.2.1).1
      have hall_n : ∀ e ∈ g.edges, e.toNode = n → e.fromNode ∈ res := by
        apply (inCnt_eq_degInit_iff g res n).mp
        have := hdeg n
        rw [hn_deg] at this
        have hle := inCnt_le_degInit g res n
        omega
      have hpos : ∀ x, ((g.adjL n).count x : Int) ≤ deg x := by
        intro x
        rw [hdeg x, count_adjL]
        have hdisj := length_filter_add_length_filter_le
          (fun e : Edge => decide (e.fromNode ∈ res))
          (fun e : Edge => decide (e.fromNode = n))
          (g.edges.filter (fun e => e.toNode = x))
          (by
            intro e _ hpq
            obtain ⟨h₁, h₂⟩ := hpq
            simp only [decide_eq_true_eq] at h₁ h₂
            exact hn_notres (h₂ ▸ h₁))
        unfold inCnt degInit
        omega
      obtain ⟨hdegF, extra, hq₁eq, hndextra, hiffX⟩ :=
        kahnFold_spec (g.adjL n) q' deg hpos
      simp only [kahnLoop]
      set step := (g.adjL n).foldl
        (fun (p : List String × (String → Int)) dep =>
          let d := p.2 dep - 1
          (if d = 0 then p.1 ++ [dep] else p.1,
           fun x => if x = dep then d else p.2 x)) (q', deg) with hstep
      have hextra_spec : ∀ x ∈ extra,
          step.2 x = 0 ∧ x ∈ g.adjL n ∧ deg x ≠ 0 :=
        fun x hx => (hiffX x).mp hx
      have hextra_not_res : ∀ x ∈ extra, x ∉ res := by
        intro x hx hxres
        obtain ⟨-, hadj, -⟩ := hextra_spec x hx
        obtain ⟨e, he, hef, het⟩ := mem_adjL.mp hadj
        exact hn_notres (hef ▸ (horder e he (het ▸ hxres)).1)
      have hextra_ne_n : ∀ x ∈ extra, x ≠ n := by
        intro x hx hxe
        exact (hextra_spec x hx).2.2 (hxe ▸ hn_deg)
      have hextra_not_q' : ∀ x ∈ extra, x ∉ q' := by
        intro x hx hxq
        exact (hextra_spec x hx).2.2 (hqzero x (List.mem_cons_of_mem _ hxq))
      have hcount_zero_q' : ∀ x, deg x = 0 → (g.adjL n).count x = 0 := by
        intro x hdx
        by_contra hc
        have hxadj : x ∈ g.adjL n :=
          List.count_pos_iff.mp (Nat.pos_of_ne_zero hc)
        obtain ⟨e, he, hef, het⟩ := mem_adjL.mp hxadj
        have hlt := degInit_pos_of_unplaced_edge g res he het
          (hef ▸ hn_notres)
        have := hdeg x
        omega
      have hInv' : KahnInv g step.1 (res ++ [n]) step.2 := by
        refine ⟨?_, ?_, ?_, ?_, ?_, ?_⟩
        · rw [hq₁eq, List.nodup_append]
          refine ⟨?_, ?_, ?_⟩
          · rw [List.nodup_append]
            exact ⟨(List.nodup_append.mp hnd).1, List.nodup_singleton _,
              fun a ha hb => hn_notres ((List.mem_singleton.mp hb) ▸ ha)⟩
          · rw [List.nodup_append]
            exact ⟨hq'_nd, hndextra, fun a ha hb => hextra_not_q' a hb ha⟩
          intro a ha hb
          rcases List.mem_append.mp ha with ha | ha
          · rcases List.mem_append.mp hb with hb | hb
            · exact hnd'.2.2 ha (List.mem_cons_of_mem _ hb)
            · exact hextra_not_res a hb ha
          · have han : a = n := List.mem_singleton.mp ha
            subst han
            rcases List.mem_append.mp hb with hb | hb
            · exact hn_notq' hb
            · exact hextra_ne_n a hb rfl
        · intro x hx
          rcases List.mem_append.mp hx with hx | hx
          · rcases List.mem_append.mp hx with hx | hx
            · exact hkeys x (List.mem_append_left _ hx)
            · exact hkeys x (List.mem_append_right _
                ((List.mem_singleton.mp hx) ▸ List.mem_cons_self _ _))
          · rw [hq₁eq] at hx
            rcases List.mem_append.mp hx with hx | hx
            · exact hkeys x (List.mem_append_right _ (List.mem_cons_of_mem _ hx))
            · exact adjL_subset_keys hWF (hextra_spec x hx).2.1
        · intro x
          rw [hdegF x, hdeg x, inCnt_append_singleton g res n x hn_notres]
          push_cast
          ring
        · intro x hxk hdx
          by_cases hcx : (g.adjL n).count x = 0
          · have hdx0 : deg x = 0 := by
              rw [hdegF x, hcx] at hdx
              simpa using hdx
            have := hzmem x hxk hdx0
            rcases List.mem_append.mp this with hx | hx
            · exact List.mem_append_left _ (List.mem_append_left _ hx)
            · rcases List.mem_cons.mp hx with rfl | hx
              · exact List.mem_append_left _
                  (List.mem_append_right _ (List.mem_singleton.mpr rfl))
              · exact List.mem_append_right _
                  (by rw [hq₁eq]; exact List.mem_append_left _ hx)
          · by_cases hdx0 : deg x = 0
            · have := hzmem x hxk hdx0
              rcases List.mem_append.mp this with hx | hx
              · exact List.mem_append_left _ (List.mem_append_left _ hx)
              · rcases List.mem_cons.mp hx with rfl | hx
                · exact List.mem_append_left _
                    (List.mem_append_right _ (List.mem_singleton.mpr rfl))
                · exact List.mem_append_right _
                    (by rw [hq₁eq]; exact List.mem_append_left _ hx)
            · have hxex : x ∈ extra := (hiffX x).mpr
                ⟨hdx, List.count_pos_iff.mp (Nat.pos_of_ne_zero hcx), hdx0⟩
              exact List.mem_append_right _
                (by rw [hq₁eq]; exact List.mem_append_right _ hxex)
        · intro e he hto
          rcases List.mem_append.mp hto with hto | hto
          · obtain ⟨hfm, hidx⟩ := horder e he hto
            refine ⟨List.mem_append_left _ hfm, ?_⟩
            rw [List.indexOf_append_of_mem hfm, List.indexOf_append_of_mem hto]
            exact hidx
          · have hton : e.toNode = n := List.mem_singleton.mp hto
            have hfm : e.fromNode ∈ res := hall_n e he hton
            refine ⟨List.mem_append_left _ hfm, ?_⟩
            rw [List.indexOf_append_of_mem hfm, hton,
              List.indexOf_append_of_not_mem hn_notres]
            have : List.indexOf n [n] = 0 := by simp
            rw [this, Nat.add_zero]
            exact List.indexOf_lt_length.mpr hfm
        · intro x hx
          rw [hq₁eq] at hx
          rcases List.mem_append.mp hx with hx | hx
          · have hdx0 : deg x = 0 := hqzero x (List.mem_cons_of_mem _ hx)
            rw [hdegF x, hcount_zero_q' x hdx0, hdx0]
            simp
          · exact (hextra_spec x hx).1
      have hlen' : (res ++ [n]).length + fuel = g.keys.length + 1 := by
        rw [List.length_append]
        simp only [List.length_singleton]
        omega
      exact ih step.1 (res ++ [n]) step.2 hInv' hlen'

/-- C2: on every well-formed graph on which `has_cycles()` is false,
`topological_sort` succeeds and returns a permutation of all node names in
which, for every edge `(u → v)`, `u` appears strictly before `v`. -/
theorem c2_topological_sort_acyclic (g : Graph) (hWF : g.WF)
    (hac : g.findCycles = []) :
    ∃ l, topologicalSort g = .ok l ∧ l.Perm g.keys ∧
      ∀ e ∈ g.edges, l.indexOf e.fromNode < l.indexOf e.toNode := by
  have hnocyc : g.hasCycles = false := by
    simp [Graph.hasCycles, hac]
  have hInv0 : KahnInv g
      (g.keys.filter (fun n =>
        ((g.edges.filter (fun e => e.toNode = n)).length : Int) = 0)) []
      (fun x => ((g.edges.filter (fun e => e.toNode = x)).length : Int)) := by
    refine ⟨by simpa using hWF.1.filter _, ?_, ?_, ?_, ?_, ?_⟩
    · intro x hx
      simp only [List.nil_append] at hx
      exact (List.mem_filter.mp hx).1
    · intro x
      rw [inCnt_nil]
      simp [degInit]
    · intro x hxk hdx
      simp only [List.nil_append]
      exact List.mem_filter.mpr ⟨hxk, by simpa using hdx⟩
    · intro e _ hto
      exact absurd hto (List.not_mem_nil _)
    · intro x hx
      have := (List.mem_filter.mp hx).2
      simpa using this
  obtain ⟨hndout, houtk, hord, hstall⟩ :=
    kahnLoop_spec g hWF (g.keys.length + 1)
      (g.keys.filter (fun n =>
        ((g.edges.filter (fun e => e.toNode = n)).length : Int) = 0)) []
      (fun x => ((g.edges.filter (fun e => e.toNode = x)).length : Int))
      hInv0 (by simp)
  have hcomplete : ∀ x ∈ g.keys,
      x ∈ kahnLoop g (g.keys.length + 1)
        (g.keys.filter (fun n =>
          ((g.edges.filter (fun e => e.toNode = n)).length : Int) = 0)) []
        (fun x => ((g.edges.filter (fun e => e.toNode = x)).length : Int)) := by
    by_contra hc
    push_neg at hc
    obtain ⟨x₀, hx₀k, hx₀⟩ := hc
    obtain ⟨L, hTopo, hndL, hcover⟩ := findCycles_nil_topoOk g hWF hac
    have hx₀S : x₀ ∈ g.keys.filter (fun y => y ∉ kahnLoop g (g.keys.length + 1)
        (g.keys.filter (fun n =>
          ((g.edges.filter (fun e => e.toNode = n)).length : Int) = 0)) []
        (fun x => ((g.edges.filter (fun e => e.toNode = x)).length : Int))) :=
      List.mem_filter.mpr ⟨hx₀k, by simpa using hx₀⟩
    refine topoOk_no_sink g hTopo hndL _ (List.ne_nil_of_mem hx₀S) ?_ ?_
    · intro y hy
      exact (hcover y).mpr (List.mem_filter.mp hy).1
    · intro v hv
      obtain ⟨hvk, hvout⟩ := List.mem_filter.mp hv
      obtain ⟨e, he, hto, hfrom⟩ := hstall v hvk (by simpa using hvout)
      refine ⟨e.fromNode,
        List.mem_filter.mpr ⟨(hWF.2 e he).1, by simpa using hfrom⟩, ?_⟩
      exact mem_adjL.mpr ⟨e, he, rfl, hto⟩
  have hperm : (kahnLoop g (g.keys.length + 1)
      (g.keys.filter (fun n =>
        ((g.edges.filter (fun e => e.toNode = n)).length : Int) = 0)) []
      (fun x => ((g.edges.filter (fun e => e.toNode = x)).length : Int))).Perm
        g.keys :=
    List.perm_of_nodup_nodup_toFinset_eq hndout hWF.1
      (Finset.ext (fun a => by
        simp only [List.mem_toFinset]
        exact ⟨fun h => houtk a h, fun h => hcomplete a h⟩))
  refine ⟨_, ?_, hperm, fun e he => (hord e he
    (hcomplete _ (hWF.2 e he).2)).2⟩
  rw [topologicalSort, if_neg (by simp [hnocyc])]
  rw [if_neg (by simpa using hperm.length_eq)]

/-- Witness for C2 on the concrete acyclic chain `A → B → C`. -/
theorem c2_witness :
    (oldChainGraph.WF ∧ oldChainGraph.findCycles = []) ∧
    (∃ l, topologicalSort oldChainGraph = .ok l ∧ l.Perm oldChainGraph.keys ∧
      ∀ e ∈ oldChainGraph.edges,
        l.indexOf e.fromNode < l.indexOf e.toNode) :=
  ⟨⟨by decide, by decide⟩,
    c2_topological_sort_acyclic oldChainGraph (by decide) (by decide)⟩

/-- Witness for C4 (amended) on the concrete acyclic chain `A → B → C`. -/
theorem c4_witness :
    (oldChainGraph.WF ∧ oldChainGraph.findCycles = [] ∧ "A" ∈ oldChainGraph.keys) ∧
    ((∀ s, oldChainGraph.getTransitiveDependents "A" = .ok s → "A" ∉ s) ∧
      "A" ∉ oldChainGraph.getTransitiveDependencies "A") :=
  ⟨⟨by decide, by decide, by decide⟩,
    c4_self_excluded_on_acyclic oldChainGraph (by decide) (by decide) "A" (by decide)⟩

/-! ## C3: the missing regex fallback after a rejected AST analysis -/

/-- C3 (divergence exhibit): the fragment `"if x"` is routed to
syntax-tree analysis (it contains the keyword `if`), and CPython's
`ast.parse` rejects it at parse time (the `if` header lacks its colon and
body, a `SyntaxError` raised by the parser itself), which the oracle
`fun _ => none` models.  `extract_variables_from_python_ast` converts that
failure — like a node-count or depth rejection, also shown — into an
empty result without raising, so `_extract_implicit_dependencies` treats
the analysis as successful and returns early with no edges, while the
pattern-based strategy the spec promises as the fallback would have
produced the implicit edge `x → owner`.  No error reaches the caller in
either case. -/
theorem c3_parse_failure_yields_no_fallback :
    shouldUseAstParsing "if x" = true ∧
    extractVariablesFromPythonAst (fun _ => none) "if x" = ([], [], []) ∧
    extractVariablesFromPythonAst (fun _ => some ⟨20000, 5, ["x"], [], []⟩)
      "if x" = ([], [], []) ∧
    extractVariablesFromPythonAst (fun _ => some ⟨5, 200, ["x"], [], []⟩)
      "if x" = ([], [], []) ∧
    (extractImplicitDependencies (fun _ => none) c3Nodes none "if x"
      "owner" none ⟨[], []⟩).edges = [] ∧
    (regexFallbackExtract c3Nodes none "if x" "owner" none
      ⟨[], []⟩).edges = [⟨"x", "owner", .implicit, none, none⟩] :=
  ⟨by decide, by decide, by decide, by decide, by decide, by decide⟩

/-! ## C5: attribute access extraction -/

/-- C5: for an owning entity whose expression text is exactly
`"obj.attr"`, with `obj` a node and no node named `attr`, the fragment
extraction produces exactly one implicit edge `obj → owner` and no edge
whose source is `attr`; run end-to-end on a concrete document of that
shape, `extract_edges` returns exactly that single edge. -/
theorem c5_obj_attr_extraction
    (parse : String → Option PyTreeInfo) (nodes : List (String × Node))
    (filePath : Option String) (owner : String) (lineNum : Option Nat)
    (hobj : "obj" ∈ nodes.map Prod.fst) (howner : owner ∈ nodes.map Prod.fst)
    (hattr : "attr" ∉ nodes.map Prod.fst) (hne : owner ≠ "obj") :
    (extractImplicitDependencies parse nodes filePath "obj.attr" owner
      lineNum ⟨[], []⟩).edges =
      [⟨"obj", owner, .implicit, filePath, lineNum⟩] ∧
    (∀ e ∈ (extractImplicitDependencies parse nodes filePath "obj.attr" owner
        lineNum ⟨[], []⟩).edges, e.fromNode ≠ "attr") ∧
    extractEdges (fun _ => none) (fun _ _ _ => []) c5Parser
      (extractNodes c5Parser) =
      [⟨"obj", "result", .implicit, none, none⟩] := by
  have hobj_ne : "obj" ≠ owner := Ne.symm hne
  have hattr_ne : "attr" ≠ owner := fun h => hattr (h ▸ howner)
  have hmain : (extractImplicitDependencies parse nodes filePath "obj.attr"
      owner lineNum ⟨[], []⟩).edges =
      [⟨"obj", owner, .implicit, filePath, lineNum⟩] := by
    rw [extractImplicitDependencies, if_neg (by decide), if_neg (by decide),
      regexFallbackExtract]
    have h1 : findObjAttrs "obj.attr" = [("obj", "attr")] := by decide
    have h2 : findIdents "obj.attr" = ["obj", "attr"] := by decide
    rw [h1, h2]
    simp [addEdge, hobj, howner, hobj_ne, hattr_ne, hattr]
  refine ⟨hmain, ?_, by decide⟩
  intro e he
  rw [hmain] at he
  have : e = ⟨"obj", owner, .implicit, filePath, lineNum⟩ :=
    List.mem_singleton.mp he
  subst this
  show ("obj" : String) ≠ "attr"
  decide

/-- Witness for C5 at a concrete node mapping. -/
theorem c5_witness :
    ("obj" ∈ ([("obj", nodeV "obj"), ("o", nodeV "o")].map Prod.fst) ∧
     "o" ∈ ([("obj", nodeV "obj"), ("o", nodeV "o")].map Prod.fst) ∧
     "attr" ∉ ([("obj", nodeV "obj"), ("o", nodeV "o")].map Prod.fst) ∧
     "o" ≠ "obj") ∧
    ((extractImplicitDependencies (fun _ => none)
        [("obj", nodeV "obj"), ("o", nodeV "o")] none "obj.attr" "o" none
        ⟨[], []⟩).edges = [⟨"obj", "o", .implicit, none, none⟩] ∧
     (∀ e ∈ (extractImplicitDependencies (fun _ => none)
         [("obj", nodeV "obj"), ("o", nodeV "o")] none "obj.attr" "o" none
         ⟨[], []⟩).edges, e.fromNode ≠ "attr") ∧
     extractEdges (fun _ => none) (fun _ _ _ => []) c5Parser
       (extractNodes c5Parser) =
       [⟨"obj", "result", .implicit, none, none⟩]) :=
  ⟨⟨by decide, by decide, by decide, by decide⟩,
    c5_obj_attr_extraction (fun _ => none)
      [("obj", nodeV "obj"), ("o", nodeV "o")] none "o" none
      (by decide) (by decide) (by decide) (by decide)⟩

/-! ## C10: extracted edges always fit the node mapping -/

theorem foldl_pres {α β : Type} (P : α → Prop) (f : α → β → α)
    (hf : ∀ a b, P a → P (f a b)) :
    ∀ (l : List β) (a : α), P a → P (l.foldl f a) := by
  intro l
  induction l with
  | nil => intro a ha; exact ha
  | cons b rest ih => intro a ha; exact ih (f a b) (hf a b ha)

theorem foldlE_pres {β : Type} (nodes : List (String × Node))
    (f : EdgeState → β → EdgeState)
    (hf : ∀ a b, (∀ e ∈ a.edges, EdgeOk nodes e) →
      ∀ e ∈ (f a b).edges, EdgeOk nodes e) :
    ∀ (l : List β) (a : EdgeState), (∀ e ∈ a.edges, EdgeOk nodes e) →
      ∀ e ∈ (l.foldl f a).edges, EdgeOk nodes e :=
  foldl_pres (fun a => ∀ e ∈ a.edges, EdgeOk nodes e) f hf

theorem addEdge_pres (nodes : List (String × Node)) (fp : Option String)
    (st : EdgeState) (f t : String) (dt : DependencyType) (ln : Option Nat)
    (h : ∀ e ∈ st.edges, EdgeOk nodes e) :
    ∀ e ∈ (addEdge nodes fp st f t dt ln).edges, EdgeOk nodes e := by
  unfold addEdge
  by_cases h₁ : f ∈ nodes.map Prod.fst ∧ t ∈ nodes.map Prod.fst
  · rw [if_pos h₁]
    by_cases h₂ : (f, t) ∉ st.seen ∧ f ≠ t
    · rw [if_pos h₂]
      intro e he
      rcases List.mem_append.mp he with he | he
      · exact h e he
      · have : e = ⟨f, t, dt, fp, ln⟩ := List.mem_singleton.mp he
        subst this
        exact ⟨h₁.1, h₁.2, h₂.2⟩
    · rw [if_neg h₂]; exact h
  · rw [if_neg h₁]; exact h

theorem extractImplicit_pres (parse : String → Option PyTreeInfo)
    (nodes : List (String × Node)) (fp : Option String) (text dst : String)
    (ln : Option Nat) (st : EdgeState)
    (h : ∀ e ∈ st.edges, EdgeOk nodes e) :
    ∀ e ∈ (extractImplicitDependencies parse nodes fp text dst ln st).edges,
      EdgeOk nodes e := by
  have hpair : ∀ (l : List (String × String)) (p : EdgeState × List String),
      (∀ e ∈ p.1.edges, EdgeOk nodes e) →
      ∀ e ∈ (l.foldl (fun (p : EdgeState × List String) oa =>
          if oa.1 ≠ dst ∧ oa.1 ∉ p.2 then
            (addEdge nodes fp p.1 oa.1 dst .implicit ln, p.2 ++ [oa.1])
          else p) p).1.edges, EdgeOk nodes e := by
    intro l
    induction l with
    | nil => intro p hp; exact hp
    | cons oa rest ih =>
      intro p hp
      rw [List.foldl_cons]
      by_cases hc : oa.1 ≠ dst ∧ oa.1 ∉ p.2
      · rw [if_pos hc]
        exact ih _ (addEdge_pres nodes fp p.1 oa.1 dst .implicit ln hp)
      · rw [if_neg hc]
        exact ih _ hp
  have hvars : ∀ (l : List String) (pv : List String) (objs : List String)
      (st' : EdgeState), (∀ e ∈ st'.edges, EdgeOk nodes e) →
      ∀ e ∈ (l.foldl (fun acc v =>
          if v ≠ dst ∧ v ∉ pv ∧ v ∉ objs then
            addEdge nodes fp acc v dst .implicit ln
          else acc) st').edges, EdgeOk nodes e := by
    intro l pv objs
    refine foldlE_pres nodes _ ?_ l
    intro a b ha
    by_cases hc : b ≠ dst ∧ b ∉ pv ∧ b ∉ objs
    · rw [if_pos hc]
      exact addEdge_pres nodes fp a b dst .implicit ln ha
    · rw [if_neg hc]; exact ha
  have hrefs : ∀ (objAttrs : List (String × String)) (l : List String)
      (pv : List String) (st' : EdgeState),
      (∀ e ∈ st'.edges, EdgeOk nodes e) →
      ∀ e ∈ (l.foldl (fun acc ref =>
          if ref ≠ dst ∧ ref ∉ pv ∧
              ¬(objAttrs.any (fun oa => ref = oa.1)) then
            addEdge nodes fp acc ref dst .implicit ln
          else acc) st').edges, EdgeOk nodes e := by
    intro objAttrs l pv
    refine foldlE_pres nodes _ ?_ l
    intro a b ha
    by_cases hc : b ≠ dst ∧ b ∉ pv ∧ ¬(objAttrs.any (fun oa => b = oa.1))
    · rw [if_pos hc]
      exact addEdge_pres nodes fp a b dst .implicit ln ha
    · rw [if_neg hc]; exact ha
  unfold extractImplicitDependencies
  by_cases ht : pyStrip text = ""
  · rw [if_pos ht]; exact h
  · rw [if_neg ht]
    by_cases hast : shouldUseAstParsing text = true
    · rw [if_pos hast]
      exact hvars _ _ _ _ (hpair _ (st, []) h)
    · rw [if_neg hast]
      unfold regexFallbackExtract
      exact hrefs _ _ _ _ (hpair _ (st, []) h)

theorem explicitEdgesOfItem_pres (p : Parser) (nodes : List (String × Node))
    (item : Yaml) (dst : String) (st : EdgeState)
    (h : ∀ e ∈ st.edges, EdgeOk nodes e) :
    ∀ e ∈ (explicitEdgesOfItem p nodes item dst st).edges, EdgeOk nodes e := by
  unfold explicitEdgesOfItem
  refine foldlE_pres nodes _ ?_ explicitDepKeys st h
  intro a depKey ha
  cases yGet (yFields item) depKey with
  | none => exact ha
  | some deps =>
    simp only []
    by_cases htr : yamlTruthy deps = true
    · rw [if_pos htr]
      refine foldlE_pres nodes _ ?_ _ a ha
      intro a' dep ha'
      cases dep with
      | str s => exact addEdge_pres nodes p.filePath a' s dst .explicit _ ha'
      | list l => exact ha'
      | map m => exact ha'
      | other b => exact ha'
    · rw [if_neg htr]; exact ha

theorem implicitEdgesOfItem_pres (parse : String → Option PyTreeInfo)
    (p : Parser) (nodes : List (String × Node)) (item : Yaml) (dst : String)
    (st : EdgeState) (h : ∀ e ∈ st.edges, EdgeOk nodes e) :
    ∀ e ∈ (implicitEdgesOfItem parse p nodes item dst st).edges,
      EdgeOk nodes e := by
  unfold implicitEdgesOfItem
  refine foldlE_pres nodes _ ?_ textFieldKeys st h
  intro a fieldName ha
  cases hf : yGet (yFields item) fieldName with
  | none => exact ha
  | some v =>
    cases v with
    | str text => exact extractImplicit_pres parse nodes p.filePath text dst _ a ha
    | list l => exact ha
    | map m => exact ha
    | other b => exact ha

theorem extractEdges_edgeOk (parse : String → Option PyTreeInfo)
    (condOracle : Yaml → String → Option Nat → List (List String))
    (p : Parser) (nodes : List (String × Node)) :
    ∀ e ∈ extractEdges parse condOracle p nodes, EdgeOk nodes e := by
  unfold extractEdges
  have hitem1 : ∀ (k : String) (st : EdgeState),
      (∀ e ∈ st.edges, EdgeOk nodes e) →
      ∀ e ∈ ((sectionItems p k).foldl (fun st item =>
        match getName item with
        | none => st
        | some dstName =>
          if dstName = "" then st
          else
            let st := explicitEdgesOfItem p nodes item dstName st
            let ln := findLineNumber p item
            (condOracle item dstName ln).foldl (fun st deps =>
              deps.foldl (fun st depVar =>
                if depVar ∈ nodes.map Prod.fst then
                  addEdge nodes p.filePath st depVar dstName .implicit ln
                else st) st) st) st).edges, EdgeOk nodes e := by
    intro k
    refine foldlE_pres nodes _ ?_ _
    intro a item ha
    cases getName item with
    | none => exact ha
    | some dstName =>
      simp only []
      by_cases hd : dstName = ""
      · rw [if_pos hd]; exact ha
      · rw [if_neg hd]
        refine foldlE_pres nodes _ ?_ _ _
          (explicitEdgesOfItem_pres p nodes item dstName a ha)
        intro a' deps ha'
        refine foldlE_pres nodes _ ?_ deps a' ha'
        intro a'' depVar ha''
        by_cases hm : depVar ∈ nodes.map Prod.fst
        · rw [if_pos hm]
          exact addEdge_pres nodes p.filePath a'' depVar dstName .implicit _ ha''
        · rw [if_neg hm]; exact ha''
  have hitem2 : ∀ (k : String) (st : EdgeState),
      (∀ e ∈ st.edges, EdgeOk nodes e) →
      ∀ e ∈ ((sectionItems p k).foldl (fun st item =>
        match getName item with
        | none => st
        | some dstName =>
          if dstName = "" then st
          else implicitEdgesOfItem parse p nodes item dstName st) st).edges,
        EdgeOk nodes e := by
    intro k
    refine foldlE_pres nodes _ ?_ _
    intro a item ha
    cases getName item with
    | none => exact ha
    | some dstName =>
      simp only []
      by_cases hd : dstName = ""
      · rw [if_pos hd]; exact ha
      · rw [if_neg hd]
        exact implicitEdgesOfItem_pres parse p nodes item dstName a ha
  have hsec1 : ∀ (ks : List String) (st : EdgeState),
      (∀ e ∈ st.edges, EdgeOk nodes e) →
      ∀ e ∈ (ks.foldl (fun st k =>
        (sectionItems p k).foldl (fun st item =>
          match getName item with
          | none => st
          | some dstName =>
            if dstName = "" then st
            else
              let st := explicitEdgesOfItem p nodes item dstName st
              let ln := findLineNumber p item
              (condOracle item dstName ln).foldl (fun st deps =>
                deps.foldl (fun st depVar =>
                  if depVar ∈ nodes.map Prod.fst then
                    addEdge nodes p.filePath st depVar dstName .implicit ln
                  else st) st) st) st) st).edges, EdgeOk nodes e := by
    intro ks
    refine foldlE_pres nodes _ ?_ ks
    intro a k ha
    exact hitem1 k a ha
  have hsec2 : ∀ (ks : List String) (st : EdgeState),
      (∀ e ∈ st.edges, EdgeOk nodes e) →
      ∀ e ∈ (ks.foldl (fun st k =>
        (sectionItems p k).foldl (fun st item =>
          match getName item with
          | none => st
          | some dstName =>
            if dstName = "" then st
            else implicitEdgesOfItem parse p nodes item dstName st) st) st).edges,
        EdgeOk nodes e := by
    intro ks
    refine foldlE_pres nodes _ ?_ ks
    intro a k ha
    exact hitem2 k a ha
  have htop : ∀ (st : EdgeState),
      (∀ e ∈ st.edges, EdgeOk nodes e) →
      ∀ e ∈ (p.raw.foldl (fun st kv =>
        if kv.1 ∈ (["questions", "variables", "fields", "rules"] : List String) then
          st
        else
          match kv.2 with
          | .map _ =>
            let dstName := match getName kv.2 with
              | some s => if s ≠ "" then s else kv.1
              | none => kv.1
            let st := explicitEdgesOfItem p nodes kv.2 dstName st
            implicitEdgesOfItem parse p nodes kv.2 dstName st
          | _ => st) st).edges, EdgeOk nodes e := by
    refine foldlE_pres nodes _ ?_ p.raw
    intro a kv ha
    by_cases hk : kv.1 ∈ (["questions", "variables", "fields", "rules"] : List String)
    · rw [if_pos hk]; exact ha
    · rw [if_neg hk]
      cases kv.2 with
      | map m =>
        exact implicitEdgesOfItem_pres parse p nodes _ _ _
          (explicitEdgesOfItem_pres p nodes _ _ a ha)
      | str s => exact ha
      | list l => exact ha
      | other b => exact ha
  exact htop _ (hsec2 _ _ (hsec1 _ _ (fun e he => absurd he (List.not_mem_nil e))))

/-- C10: every edge produced by `extract_edges` has both endpoints among
the keys of the node mapping it was given and is not a self-loop; hence a
`DependencyGraph` built from `extract_nodes()` and the corresponding
`extract_edges()` result always constructs successfully, and the
`no_missing_dependencies` and `no_undefined_references` policies report
nothing on it.  The statement quantifies over the `ast.parse` and
conditional-extraction collaborators, so it holds for every behaviour of
theirs. -/
theorem c10_extracted_edges_wellformed
    (parse : String → Option PyTreeInfo)
    (condOracle : Yaml → String → Option Nat → List (List String))
    (p : Parser) (nodes : List (String × Node)) :
    (∀ e ∈ extractEdges parse condOracle p nodes,
      e.fromNode ∈ nodes.map Prod.fst ∧ e.toNode ∈ nodes.map Prod.fst ∧
        e.fromNode ≠ e.toNode) ∧
    mkGraph (extractNodes p)
      (extractEdges parse condOracle p (extractNodes p)) =
      .ok ⟨extractNodes p, extractEdges parse condOracle p (extractNodes p)⟩ ∧
    checkMissingDependencies
      ⟨extractNodes p, extractEdges parse condOracle p (extractNodes p)⟩ = [] ∧
    checkNoUndefinedReferences
      ⟨extractNodes p, extractEdges parse condOracle p (extractNodes p)⟩ = [] := by
  have hok : ∀ (ns : List (String × Node)),
      ∀ e ∈ extractEdges parse condOracle p ns, EdgeOk ns e :=
    fun ns => extractEdges_edgeOk parse condOracle p ns
  have hkeys : ∀ e ∈ extractEdges parse condOracle p (extractNodes p),
      e.fromNode ∈ (extractNodes p).map Prod.fst ∧
      e.toNode ∈ (extractNodes p).map Prod.fst :=
    fun e he => ⟨(hok _ e he).1, (hok _ e he).2.1⟩
  refine ⟨fun e he => hok nodes e he, ?_, ?_, ?_⟩
  · have hce := checkEdges_none ((extractNodes p).map Prod.fst)
      (extractEdges parse condOracle p (extractNodes p)) hkeys
    unfold mkGraph
    rw [hce]
  · unfold checkMissingDependencies
    rw [List.flatten_eq_nil_iff]
    intro l hl
    rw [List.mem_map] at hl
    obtain ⟨e, he, rfl⟩ := hl
    have h := hkeys e he
    simp only [Graph.keys]
    rw [if_neg (not_not_intro h.1), if_neg (not_not_intro h.2)]
    rfl
  · unfold checkNoUndefinedReferences
    rw [List.filterMap_eq_nil_iff]
    intro e he
    rw [if_neg]
    intro hc
    exact hc.2 (hkeys e he).1

end DaDag
